import Mathlib

/-!
Verification of the batdoc document-text extractor against its specification.

Each Rust module of the program is shallowly embedded as executable Lean
definitions that mirror the source structure; theorems at the end settle the
specification claims.  Machine integers are modelled as `Nat`/`Int` (the Rust
code never relies on wrap-around in the embedded paths), `f64` values as a
sum of the IEEE special values and exact rationals, and fallible code as
`Except`/`Option`.
-/

set_option maxRecDepth 4096

-- ── Rust string primitives ─────────────────────────────────────────

/-- Characters treated as whitespace by Rust `char::is_whitespace`
(the Unicode White_Space property). -/
def rustIsWhitespace (c : Char) : Bool :=
  let n := c.toNat
  (0x09 ≤ n && n ≤ 0x0D) || n == 0x20 || n == 0x85 || n == 0xA0 ||
  n == 0x1680 || (0x2000 ≤ n && n ≤ 0x200A) || n == 0x2028 || n == 0x2029 ||
  n == 0x202F || n == 0x205F || n == 0x3000

/-- Rust `str::trim_start`. -/
def rustTrimStartList (l : List Char) : List Char :=
  l.dropWhile rustIsWhitespace

/-- Rust `str::trim_end`. -/
def rustTrimEndList (l : List Char) : List Char :=
  (l.reverse.dropWhile rustIsWhitespace).reverse

/-- Rust `str::trim`. -/
def rustTrimList (l : List Char) : List Char :=
  rustTrimEndList (rustTrimStartList l)

def rustTrim (s : String) : String := String.mk (rustTrimList s.data)

def rustTrimEnd (s : String) : String := String.mk (rustTrimEndList s.data)

def rustTrimStart (s : String) : String := String.mk (rustTrimStartList s.data)

/-- Little-endian `u16` from two bytes. -/
def le16 (a b : Nat) : Nat := a + 256 * b

/-- Little-endian `u32` from four bytes. -/
def le32 (a b c d : Nat) : Nat := a + 256 * (b + 256 * (c + 256 * d))

namespace Codepage

/-- The body of the `match primary` expression of `lid_to_codepage`
(src/codepage.rs), one arm per Rust match arm, in source order. -/
def lidPrimaryMatch (primary : Nat) : Nat :=
  if primary = 0x0004 then 936
  else if primary = 0x0011 then 932
  else if primary = 0x0012 then 949
  else if primary = 0x0019 ∨ primary = 0x0022 ∨ primary = 0x0023 ∨ primary = 0x0402 then 1251
  else if primary = 0x001A ∨ primary = 0x0005 ∨ primary = 0x000E ∨ primary = 0x0015 ∨
          primary = 0x001B ∨ primary = 0x0024 then 1250
  else if 0x0025 ≤ primary ∧ primary ≤ 0x0027 then 1257
  else if primary = 0x0008 then 1253
  else if primary = 0x001F then 1254
  else if primary = 0x000D then 1255
  else if primary = 0x0001 ∨ primary = 0x0029 then 1256
  else if primary = 0x002A then 1258
  else if primary = 0x001E then 874
  else if primary = 0x0404 then 950
  else 1252

/-- `lid_to_codepage` (src/codepage.rs): strips the sublanguage bits with
mask `0x03FF`, then matches on the primary language. -/
def lid_to_codepage (lid : Nat) : Nat :=
  lidPrimaryMatch (lid &&& 0x03FF)

end Codepage

namespace Dateconv

/-- Model of an `f64` value: the IEEE special values, plus finite values as
an exact rational `num / den` (a finite double is such a rational; `den` is
positive for every value built by the embedding).  The arithmetic the
embedded paths perform on finite values (floor, subtraction of the floor,
sign tests, comparison against exactly representable constants) is exact in
IEEE double precision for the inputs the claims quantify over, so the exact
rational model is faithful there; each operation of the Rust source is
modelled by the corresponding exact operation on `num / den` below. -/
inductive FVal where
  | nan
  | inf
  | neginf
  | fin (num : ℤ) (den : ℕ)
deriving DecidableEq

/-- `is_leap_year` (src/dateconv.rs).  Years reached by the conversion are
positive, where Rust `%` agrees with `Int.emod`. -/
def isLeapYear (y : ℤ) : Bool :=
  (y % 4 == 0 && y % 100 != 0) || y % 400 == 0

/-- The year-advancing loop of `serial_to_ymd`.  The Rust loop runs until
`days_remaining < days_in_year`; fuel bounds the iteration count (the caller
passes more fuel than the capped serial range can consume). -/
def yearLoop : Nat → ℤ → ℤ → ℤ × ℤ
  | 0, daysRemaining, year => (daysRemaining, year)
  | fuel + 1, daysRemaining, year =>
    let daysInYear : ℤ := if isLeapYear year then 366 else 365
    if daysRemaining < daysInYear then (daysRemaining, year)
    else yearLoop fuel (daysRemaining - daysInYear) (year + 1)

/-- The per-month day counts of `serial_to_ymd`. -/
def monthDays (leap : Bool) : List ℤ :=
  if leap then [31, 29, 31, 30, 31, 30, 31, 31, 30, 31, 30, 31]
  else [31, 28, 31, 30, 31, 30, 31, 31, 30, 31, 30, 31]

/-- The month-advancing loop of `serial_to_ymd`; returns (month, days left). -/
def monthLoop : List ℤ → ℤ → ℤ → ℤ × ℤ
  | [], month, daysRemaining => (month, daysRemaining)
  | md :: rest, month, daysRemaining =>
    if daysRemaining < md then (month, daysRemaining)
    else monthLoop rest (month + 1) (daysRemaining - md)

/-- `serial_to_ymd` (src/dateconv.rs): serial 60 is the fake 1900-02-29,
serials above 60 are shifted down by one, then years and months are peeled
off starting from 1900-01-01 (serial 1). -/
def serialToYmd (serial : ℤ) : ℤ × ℤ × ℤ :=
  if serial = 60 then (1900, 2, 29)
  else
    let adjusted := if serial > 60 then serial - 1 else serial
    let (dr, year) := yearLoop 8200 (adjusted - 1) 1900
    let (month, dr2) := monthLoop (monthDays (isLeapYear year)) 1 dr
    (year, month, dr2 + 1)

/-- The fractional part of a serial, `serial - serial.floor()`, as the exact
rational `num / den`: for the value `n / d` the floor is `n / d` rounded down
(Euclidean division by a positive `d`), and the fraction is
`(n - floor * d) / d`. -/
def fracNum (num : ℤ) (den : ℕ) : ℤ :=
  num - (num / (den : ℤ)) * (den : ℤ)

/-- `frac_to_hms` (src/dateconv.rs) applied to the fraction `num / den`:
`(frac * 86400.0).round()` with Rust rounding (half away from zero; the
fraction is nonnegative) is `floor(num * 86400 / den + 1/2)`, computed as one
exact Euclidean division. -/
def fracToHms (num : ℤ) (den : ℕ) : ℕ × ℕ × ℕ :=
  let totalSeconds := ((num * 172800 + (den : ℤ)) / (2 * (den : ℤ))).toNat
  ((totalSeconds / 3600) % 24, (totalSeconds % 3600) / 60, totalSeconds % 60)

/-- Zero-pad a natural number to two digits (Rust format spec 02). -/
def pad2 (n : ℕ) : String :=
  if n < 10 then "0" ++ toString n else toString n

/-- Zero-pad to four digits (Rust format spec 04), for nonnegative values. -/
def pad4 (n : ℤ) : String :=
  let s := toString n
  if s.length < 4 then String.mk (List.replicate (4 - s.length) '0') ++ s else s

/-- `format_time_only` (src/dateconv.rs), on the fraction `num / den`. -/
def formatTimeOnly (num : ℤ) (den : ℕ) : String :=
  let (h, m, s) := fracToHms num den
  pad2 h ++ ":" ++ pad2 m ++ ":" ++ pad2 s

/-- Model of Rust float `Display` (shortest round-trip decimal), reached by
`format_fallback` only for non-integral or enormous values.  Only the branch
structure of the fallback matters to the claims; none of them depends on
this rendering. -/
def floatDisplay (num : ℤ) (den : ℕ) : String :=
  toString num ++ "/" ++ toString den

/-- `format_fallback` (src/dateconv.rs): values with `fract() == 0.0` (the
denominator divides the numerator) and magnitude below 1e15 print as `i64`,
everything else through float `Display`. -/
def formatFallback (v : FVal) : String :=
  match v with
  | .nan => "NaN"
  | .inf => "inf"
  | .neginf => "-inf"
  | .fin num den =>
    if (den : ℤ) ∣ num ∧ |num| < 10 ^ 15 * (den : ℤ) then
      toString (num / (den : ℤ))
    else floatDisplay num den

/-- `serial_to_iso` (src/dateconv.rs).  The comparison against the literal
`1e-10` is modelled as the exact `|frac| < 10⁻¹⁰`, i.e.
`|fracNum| * 10¹⁰ < den`; the f64 literal is the nearest double to 10⁻¹⁰ and
the difference is immaterial to the claims (their fractions are 0 or 1/2). -/
def serialToIso (v : FVal) : String :=
  match v with
  | .nan => formatFallback v
  | .inf => formatFallback v
  | .neginf => formatFallback v
  | .fin num den =>
    if num < 0 then formatFallback v
    else
      let daySerial : ℤ := num / (den : ℤ)
      let fn : ℤ := fracNum num den
      if daySerial = 0 then
        if 0 < fn then formatTimeOnly fn den else formatFallback v
      else if daySerial > 2958465 then formatFallback v
      else
        let (year, month, day) := serialToYmd daySerial
        if |fn| * 10000000000 < (den : ℤ) then
          pad4 year ++ "-" ++ pad2 month.toNat ++ "-" ++ pad2 day.toNat
        else
          let (h, m, s) := fracToHms fn den
          pad4 year ++ "-" ++ pad2 month.toNat ++ "-" ++ pad2 day.toNat ++ " " ++
            pad2 h ++ ":" ++ pad2 m ++ ":" ++ pad2 s

/-- The serials the claim routes to the fallback: negative, non-finite, or
with integer part (day part) above the year-9999 cap. -/
def fallbackTrigger (v : FVal) : Prop :=
  match v with
  | .fin num den => num < 0 ∨ num / (den : ℤ) > 2958465
  | _ => True

/-- `is_date_format_string` (src/dateconv.rs), as a direct fold over the
characters with the four state booleans of the Rust loop. -/
def asciiLower (c : Char) : Char :=
  if 'A' ≤ c ∧ c ≤ 'Z' then Char.ofNat (c.toNat + 32) else c

/-- The date-token match arm of the scan, on the lowercased character. -/
def dateTok (c : Char) : Bool :=
  c = 'y' ∨ c = 'd' ∨ c = 'h' ∨ c = 's' ∨ c = 'm'

/-- The number-token match arm of the scan, on the lowercased character. -/
def numTok (c : Char) : Bool :=
  c = '0' ∨ c = '#' ∨ c = '?'

def isDateScan (hasDate hasNum inQuote prevBackslash : Bool) : List Char → Bool
  | [] => hasDate && !hasNum
  | c :: cs =>
    if prevBackslash then isDateScan hasDate hasNum inQuote false cs
    else if c = '\\' then isDateScan hasDate hasNum inQuote true cs
    else if c = '"' then isDateScan hasDate hasNum (!inQuote) prevBackslash cs
    else if inQuote then isDateScan hasDate hasNum inQuote prevBackslash cs
    else if dateTok (asciiLower c) then isDateScan true hasNum inQuote prevBackslash cs
    else if numTok (asciiLower c) then isDateScan hasDate true inQuote prevBackslash cs
    else isDateScan hasDate hasNum inQuote prevBackslash cs

def is_date_format_string (fmt : String) : Bool :=
  isDateScan false false false false fmt.data

/-- The characters of a format string that the scan actually classifies:
those not skipped for being inside a double-quoted span or for immediately
following a backslash.  This follows the wording of the specification. -/
def effectiveChars (inQuote prevBackslash : Bool) : List Char → List Char
  | [] => []
  | c :: cs =>
    if prevBackslash then effectiveChars inQuote false cs
    else if c = '\\' then effectiveChars inQuote true cs
    else if c = '"' then effectiveChars (!inQuote) prevBackslash cs
    else if inQuote then effectiveChars inQuote prevBackslash cs
    else c :: effectiveChars inQuote prevBackslash cs

/-- Cumulative day count of the year loop: the days consumed by `k`
consecutive loop iterations starting at year `y`. -/
def daysSpan (y : ℤ) : ℕ → ℤ
  | 0 => 0
  | k + 1 => (if isLeapYear y then 366 else 365) + daysSpan (y + 1) k

/-- Closed-form count of leap years strictly below `y` (Gregorian), used to
evaluate `daysSpan` without unfolding thousands of loop iterations. -/
def leapsUpto (y : ℤ) : ℤ :=
  (y - 1) / 4 - (y - 1) / 100 + (y - 1) / 400

end Dateconv

namespace Main

/-- The document formats of `detect_format` (src/main.rs). -/
inductive Format where
  | Doc
  | Xls
  | Docx
  | Xlsx
  | Pptx
  | Pdf
deriving DecidableEq

def OLE2_MAGIC : List ℕ := [0xD0, 0xCF, 0x11, 0xE0, 0xA1, 0xB1, 0x1A, 0xE1]

def ZIP_MAGIC : List ℕ := [0x50, 0x4B, 0x03, 0x04]

def PDF_MAGIC : List ℕ := [0x25, 0x50, 0x44, 0x46, 0x2D]

/-- `detect_format` (src/main.rs).  The two external libraries are modelled
by their observable results: `cfbStreams` is the set of stream paths of the
compound file when `cfb::CompoundFile::open` succeeds (`none` when it
fails), and `zipNames` likewise the entry names of the ZIP archive; the
`?` operator on a library failure is an error return. -/
def detect_format (data : List ℕ) (cfbStreams : Option (List String))
    (zipNames : Option (List String)) : Except String Format :=
  if data.length ≥ 8 ∧ data.take 8 = OLE2_MAGIC then
    match cfbStreams with
    | none => .error "cfb open failed"
    | some ss =>
      if "/WordDocument" ∈ ss then .ok .Doc
      else if "/Workbook" ∈ ss ∨ "/Book" ∈ ss then .ok .Xls
      else .error "OLE2 file is not a .doc or .xls document"
  else if data.length ≥ 5 ∧ data.take 5 = PDF_MAGIC then .ok .Pdf
  else if data.length ≥ 4 ∧ data.take 4 = ZIP_MAGIC then
    match zipNames with
    | none => .error "zip open failed"
    | some names =>
      if "word/document.xml" ∈ names then .ok .Docx
      else if "xl/workbook.xml" ∈ names then .ok .Xlsx
      else if "ppt/presentation.xml" ∈ names then .ok .Pptx
      else .error "ZIP archive is not a .docx, .xlsx, or .pptx file"
  else .error "not a supported document (unrecognized format)"

end Main

namespace Markup

/-- A text run as seen through the `InlineRun` trait (src/markup.rs). -/
structure Run where
  text : String
  bold : Bool
  italic : Bool
  linkUrl : Option String
deriving DecidableEq

/-- `format_run_inline` (src/markup.rs): whitespace-only runs are emitted
verbatim, others are wrapped by the (bold, italic) marker pair. -/
def format_run_inline (r : Run) : String :=
  if rustTrim r.text = "" then r.text
  else
    match r.bold, r.italic with
    | true, true => "***" ++ r.text ++ "***"
    | true, false => "**" ++ r.text ++ "**"
    | false, true => "*" ++ r.text ++ "*"
    | false, false => r.text

/-- The text accumulated for one hyperlink group: each run of the group
contributes its raw text when whitespace-only, its inline-formatted text
otherwise (the body of the inner while loop of `render_runs_markdown`). -/
def groupLinkText (group : List Run) : String :=
  group.foldl
    (fun acc x => acc ++ if rustTrim x.text = "" then x.text else format_run_inline x) ""

/-- What one maximal hyperlink group contributes to the output: a single
markdown link around the trimmed accumulated text, or nothing when that
text trims to empty. -/
def renderLinkGroup (group : List Run) (url : String) : String :=
  let t := rustTrim (groupLinkText group)
  if t = "" then "" else "[" ++ t ++ "](" ++ url ++ ")"

/-- The loop of `render_runs_markdown` (src/markup.rs).  The inner while
loop that advances `i` across a hyperlink group appears as the
`takeWhile`/`dropWhile` split on the group predicate; fuel bounds the
number of outer iterations (each consumes at least one run). -/
def renderRunsAux : ℕ → List Run → String
  | 0, _ => ""
  | _ + 1, [] => ""
  | fuel + 1, r :: rs =>
    match r.linkUrl with
    | some url =>
      let group := r :: rs.takeWhile fun x => x.linkUrl = some url
      let rest := rs.dropWhile fun x => x.linkUrl = some url
      renderLinkGroup group url ++ renderRunsAux fuel rest
    | none =>
      (if rustTrim r.text = "" then r.text else format_run_inline r) ++ renderRunsAux fuel rs

/-- `render_runs_markdown` (src/markup.rs). -/
def render_runs_markdown (runs : List Run) : String :=
  renderRunsAux (runs.length + 1) runs

end Markup

namespace Heuristic

/-- Rust `str::lines`: split at `\n`, dropping one `\r` before each `\n`;
the final line ending is optional. -/
def rustLinesAux : List Char → List Char → List (List Char)
  | [], acc => if acc = [] then [] else [acc.reverse]
  | c :: rest, acc =>
    if c = '\n' then
      let line := acc.reverse
      (if line.getLast? = some '\r' then line.dropLast else line) :: rustLinesAux rest []
    else rustLinesAux rest (c :: acc)

def rustLines (s : String) : List String :=
  (rustLinesAux s.data []).map String.mk

/-- Rust `str::split('\t')`: the parts between tabs, empties included. -/
def splitTabsAux : List Char → List Char → List (List Char)
  | [], acc => [acc.reverse]
  | c :: rest, acc =>
    if c = '\t' then acc.reverse :: splitTabsAux rest []
    else splitTabsAux rest (c :: acc)

def splitTabs (s : String) : List String :=
  (splitTabsAux s.data []).map String.mk

/-- Rust `str::len` (UTF-8 byte length). -/
def rustLen (s : String) : ℕ := s.utf8ByteSize

/-- ASCII model of Rust `str::to_lowercase` (the claims exercise it on
ASCII text only, where the two agree byte for byte). -/
def asciiLowerStr (s : String) : String :=
  String.mk (s.data.map Dateconv.asciiLower)

/-- ASCII model of Rust `char::is_uppercase` (the claims exercise ASCII). -/
def rustIsUppercase (c : Char) : Bool := c.isUpper

/-- Cell escaping in `render_table`: `cell.replace('|', "\\|")`. -/
def escapePipes (s : String) : String :=
  String.mk (s.data.flatMap fun c => if c = '|' then ['\\', '|'] else [c])

/-- `slice::chunks` with positive chunk size, by fuel on the list length. -/
def listChunksAux (n : ℕ) : ℕ → List String → List (List String)
  | 0, _ => []
  | _ + 1, [] => []
  | fuel + 1, l => l.take n :: listChunksAux n fuel (l.drop n)

def listChunks (n : ℕ) (l : List String) : List (List String) :=
  listChunksAux n (l.length + 1) l

/-- `try_strip_section_number` (src/heuristic.rs).  The Rust byte indices
fall on the all-ASCII digit-and-dot prefix, so the character model agrees
with the byte loop. -/
def try_strip_section_number (s : List Char) : Option (List Char) :=
  match s with
  | [] => none
  | c :: _ =>
    if ¬ c.isDigit then none
    else
      let pfx := s.takeWhile fun c => c.isDigit ∨ c = '.'
      let rest := s.dropWhile fun c => c.isDigit ∨ c = '.'
      if ¬ pfx.contains '.' then none
      else some (rest.dropWhile (· = ' '))

/-- `detect_numbered_heading` (src/heuristic.rs). -/
def detect_numbered_heading (line : String) : Option String :=
  let trimmed := rustTrim line
  if rustLen trimmed > 120 then none
  else
    let numbered :=
      match try_strip_section_number trimmed.data with
      | some rest =>
        if rest ≠ [] ∧ rest.getLast? ≠ some '.' then
          let pfxLen := trimmed.data.length - rest.length
          let depth := (trimmed.data.take pfxLen).count '.'
          let level := min depth 3
          some (String.mk (List.replicate level '#') ++ " " ++ trimmed)
        else none
      | none => none
    match numbered with
    | some h => some h
    | none =>
      let lower := asciiLowerStr trimmed
      if (lower.data.take 8 = "appendix".data ∨ lower.data.take 8 = "scenario".data) ∧
          trimmed.data.contains ':' ∧ rustLen trimmed < 100 then
        some ("## " ++ trimmed)
      else none

/-- `is_likely_subheading` (src/heuristic.rs). -/
def is_likely_subheading (line : String) (idx : ℕ) (lines : List String) : Bool :=
  let trimmed := rustTrim line
  if rustLen trimmed > 80 ∨ rustLen trimmed < 3 then false
  else if trimmed.data.getLast? = some '.' ∨ trimmed.data.getLast? = some ',' ∨
      trimmed.data.getLast? = some ';' then false
  else if ¬ trimmed.data.contains ' ' ∧ ¬ trimmed.data.contains '\t' then false
  else
    let blankBefore := idx = 0 ∨ rustTrim ((lines.drop (idx - 1)).headD "") = ""
    let blankAfter := idx + 1 ≥ lines.length ∨ rustTrim ((lines.drop (idx + 1)).headD "") = ""
    if ¬ blankBefore ∨ ¬ blankAfter then false
    else
      match trimmed.data.head? with
      | some c => rustIsUppercase c
      | none => true

/-- `detect_column_count` (src/heuristic.rs). -/
def detect_column_count (cells : List String) : ℕ :=
  let n := cells.length
  if n ≤ 2 then 1
  else if n ≤ 6 then n
  else
    let empties := (cells.enum.filter fun ic => ic.2 = "").map (·.1)
    let viaEmpties :=
      match empties with
      | e0 :: _ :: _ =>
        let firstGap := e0 + 1
        let consistent := (empties.zip empties.tail).all fun ab => ab.2 - ab.1 = firstGap
        if consistent ∧ 2 ≤ firstGap ∧ firstGap ≤ 10 then some firstGap else none
      | _ => none
    match viaEmpties with
    | some g => g
    | none =>
      match [3, 4, 5, 2].find? (fun nc => n % nc = 0 ∧ n / nc ≥ 2) with
      | some nc => nc
      | none => min n 6

/-- The body of the per-line loop of `render_table` (src/heuristic.rs):
reshape one flat cell list into markdown table rows. -/
def renderTableLine (cells : List String) : String :=
  let ncols := detect_column_count cells
  if ncols ≤ 1 then
    let text := rustTrim (String.intercalate " " cells)
    if text ≠ "" then text ++ "\n\n" else ""
  else
    let rows := listChunks ncols cells
    if rows.isEmpty then ""
    else
      let rows := rows.filter fun row => row.any fun c => ¬ c = ""
      if rows.isEmpty then ""
      else
        let emitRow : List String → String := fun row =>
          "|" ++ String.join ((List.range ncols).map fun ci =>
            " " ++ escapePipes ((row.drop ci).headD "") ++ " |") ++ "\n"
        let sepRow := "|" ++ String.join ((List.range ncols).map fun _ => " --- |") ++ "\n"
        String.join (rows.enum.map fun ir =>
          emitRow ir.2 ++ if ir.1 = 0 then sepRow else "") ++ "\n"

/-- `render_table` (src/heuristic.rs): split every line of the run into
trimmed tab-separated cells, then render each line. -/
def render_table (lines : List String) : String :=
  if lines.isEmpty then ""
  else
    let allCells := lines.map fun l => (splitTabs (rustTrim l)).map rustTrim
    String.join (allCells.map renderTableLine)

/-- The single-line few-tabs branch of `plain_to_markdown`: tabs become
spaces and the line is emitted as plain text. -/
def singleTabLine (line : String) : String :=
  let text := String.mk (line.data.map fun c => if c = '\t' then ' ' else c)
  let text := rustTrim text
  if ¬ text = "" then text ++ "\n\n" else ""

/-- The cursor loop of `plain_to_markdown` (src/heuristic.rs); `i` is the
cursor into `lines`, fuel bounds the iteration count (the cursor strictly
advances). -/
def plainToMarkdownAux (lines : List String) : ℕ → ℕ → String
  | 0, _ => ""
  | fuel + 1, i =>
    match (lines.drop i).head? with
    | none => ""
    | some line0 =>
      let line := rustTrim line0
      if line = "" then plainToMarkdownAux lines fuel (i + 1)
      else if line.data.contains '\t' then
        let run := (lines.drop i).takeWhile fun l => (rustTrim l).data.contains '\t'
        let tabCount := line0.data.count '\t'
        (if run.length ≥ 2 ∨ tabCount ≥ 5 then render_table run else singleTabLine line) ++
          plainToMarkdownAux lines fuel (i + run.length)
      else
        match detect_numbered_heading line with
        | some heading => heading ++ "\n\n" ++ plainToMarkdownAux lines fuel (i + 1)
        | none =>
          if is_likely_subheading line i lines then
            "**" ++ line ++ "**\n\n" ++ plainToMarkdownAux lines fuel (i + 1)
          else
            line ++ "\n\n" ++ plainToMarkdownAux lines fuel (i + 1)

/-- `plain_to_markdown` (src/heuristic.rs). -/
def plain_to_markdown (text : String) : String :=
  let lines := rustLines text
  plainToMarkdownAux lines (lines.length + 1) 0

end Heuristic

namespace Codepage

/-- `decode_byte` (src/codepage.rs).  ASCII bytes decode to themselves; high
bytes go through the external `encoding_rs` tables, which the embedding
abstracts as the parameter `dh` (every theorem below holds for every such
table function). -/
def decode_byte (dh : ℕ → ℕ → Char) (b cp : ℕ) : Char :=
  if b < 0x80 then Char.ofNat b else dh b cp

end Codepage

namespace Doc

/-- `FieldState` (src/doc.rs): what is being collected inside a field. -/
inductive FieldState where
  | instruction (buf : String)
  | display (url : Option String) (text : String)
deriving DecidableEq

/-- Index of the first occurrence of `needle` in `hay` (Rust `str::find`
with a string pattern; indices fall on ASCII text for every claim). -/
def findSubIdx : List Char → List Char → Option ℕ
  | [], needle => if needle = [] then some 0 else none
  | h :: t, needle =>
    if (h :: t).take needle.length = needle then some 0
    else (findSubIdx t needle).map (· + 1)

/-- `extract_hyperlink_url` (src/doc.rs). -/
def extract_hyperlink_url (instruction : String) : Option String :=
  let trimmed := rustTrimList instruction.data
  let rest :=
    if trimmed.take 9 = "HYPERLINK".data then some (trimmed.drop 9)
    else if trimmed.take 9 = "hyperlink".data then some (trimmed.drop 9)
    else
      let lower := trimmed.map Dateconv.asciiLower
      match findSubIdx lower "hyperlink".data with
      | some idx => some (trimmed.drop (idx + 9))
      | none => none
  match rest with
  | none => none
  | some rest =>
    let rest := rustTrimStartList rest
    if rest = [] then none
    else
      let url :=
        if rest.take 1 = ['"'] then (rest.drop 1).takeWhile (fun c => ¬ c = '"')
        else rest.takeWhile fun c => ¬ (rustIsWhitespace c ∨ c = '\\')
      if url = [] then none else some (String.mk url)

/-- Pairs of consecutive bytes (Rust `chunks_exact(2)`; a trailing odd byte
is dropped). -/
def chunksExact2 : List ℕ → List (ℕ × ℕ)
  | a :: b :: rest => (a, b) :: chunksExact2 rest
  | _ => []

/-- Rust `u8::is_ascii_punctuation`. -/
def isAsciiPunct (c : ℕ) : Bool :=
  (0x21 ≤ c ∧ c ≤ 0x2F) ∨ (0x3A ≤ c ∧ c ≤ 0x40) ∨ (0x5B ≤ c ∧ c ≤ 0x60) ∨
  (0x7B ≤ c ∧ c ≤ 0x7E)

/-- `detect_unicode_block` (src/doc.rs). -/
def detect_unicode_block (block : List ℕ) : Bool :=
  (chunksExact2 block).any fun cd =>
    (cd.1 = 0x20 ∨ cd.1 = 0x0D ∨ isAsciiPunct cd.1) ∧ cd.2 = 0

/-- `char::encode_utf16`: the UTF-16 code units of a character. -/
def charEncodeUtf16 (ch : Char) : List ℕ :=
  if ch.toNat < 0x10000 then [ch.toNat]
  else [0xD800 + (ch.toNat - 0x10000) / 0x400, 0xDC00 + (ch.toNat - 0x10000) % 0x400]

/-- `extract_word8_text` (src/doc.rs): the 256-byte block loop; fuel bounds
the number of blocks. -/
def extractWord8Aux (dh : ℕ → ℕ → Char) (cp : ℕ) : ℕ → List ℕ → List ℕ
  | 0, _ => []
  | _ + 1, [] => []
  | fuel + 1, data =>
    let block := data.take 256
    (if detect_unicode_block block then (chunksExact2 block).map fun p => le16 p.1 p.2
     else block.flatMap fun b => charEncodeUtf16 (Codepage.decode_byte dh b cp)) ++
      extractWord8Aux dh cp fuel (data.drop 256)

def extract_word8_text (dh : ℕ → ℕ → Char) (data : List ℕ) (cp : ℕ) : List ℕ :=
  extractWord8Aux dh cp (data.length + 1) data

/-- `extract_8bit_text` (src/doc.rs). -/
def extract_8bit_text (dh : ℕ → ℕ → Char) (data : List ℕ) (cp : ℕ) : List ℕ :=
  data.flatMap fun b => charEncodeUtf16 (Codepage.decode_byte dh b cp)

/-- `char::from_u32`. -/
def charFromU32 (n : ℕ) : Option Char :=
  if n < 0xD800 ∨ (0xDFFF < n ∧ n < 0x110000) then some (Char.ofNat n) else none

/-- The state of the character loop of `chars_to_text` (src/doc.rs).  The
Rust `Vec` field stack pushes and pops at the end; here the head of the list
is the innermost field. -/
structure DocState where
  output : String
  paragraph : String
  first : Bool
  fieldDepth : ℤ
  fieldStack : List FieldState
  pendingHigh : Option ℕ
deriving DecidableEq

/-- `flush_paragraph` (src/doc.rs); returns (paragraph, output, first). -/
def flushParagraph (paragraph output : String) (first : Bool) :
    String × String × Bool :=
  let text := rustTrimEnd paragraph
  if ¬ text = "" then
    ("", (if ¬ first then output ++ "\n" else output) ++ text ++ "\n", false)
  else ("", output, first)

/-- `push_char_to_field_or_para` (src/doc.rs). -/
def pushCharToFieldOrPara (ch : Char) (stack : List FieldState)
    (paragraph : String) : List FieldState × String :=
  match stack with
  | [] => ([], paragraph ++ ch.toString)
  | .instruction buf :: rest => (.instruction (buf ++ ch.toString) :: rest, paragraph)
  | .display url text :: rest => (.display url (text ++ ch.toString) :: rest, paragraph)

/-- `emit_field_end` (src/doc.rs). -/
def emitFieldEnd (stack : List FieldState) (paragraph : String) :
    List FieldState × String :=
  match stack with
  | [] => ([], paragraph)
  | .display (some url) text :: rest =>
    (rest, paragraph ++ "[" ++ rustTrim text ++ "](" ++ url ++ ")")
  | .display none text :: rest => (rest, paragraph ++ text)
  | .instruction _ :: rest => (rest, paragraph)

/-- The `match c` of the character loop, in source arm order (after the
surrogate-pair pre-handling). -/
def docMatch (st : DocState) (c : ℕ) : DocState :=
  if 0xD800 ≤ c ∧ c ≤ 0xDBFF then { st with pendingHigh := some c }
  else if c = 0x0013 then
    { st with
        fieldDepth := st.fieldDepth + 1,
        fieldStack := .instruction "" :: st.fieldStack }
  else if c = 0x0014 then
    match st.fieldStack with
    | [] => st
    | s :: rest =>
      let url := match s with
        | .instruction instr => extract_hyperlink_url instr
        | _ => none
      { st with fieldStack := .display url "" :: rest }
  else if c = 0x0015 then
    let (fs, para) := emitFieldEnd st.fieldStack st.paragraph
    { st with
        fieldStack := fs,
        paragraph := para,
        fieldDepth := if st.fieldDepth > 0 then st.fieldDepth - 1 else st.fieldDepth }
  else if st.fieldDepth > 0 then
    if c = 0x000D ∨ c = 0x000B then
      { st with fieldStack :=
          match st.fieldStack with
          | .instruction _ :: rest => .instruction "" :: rest
          | .display url _ :: rest => .display url "" :: rest
          | [] => [] }
    else
      match charFromU32 c with
      | some ch =>
        if (' ' : Char) ≤ ch then
          match st.fieldStack with
          | [] => st
          | .instruction buf :: rest =>
            { st with fieldStack := .instruction (buf ++ ch.toString) :: rest }
          | .display url text :: rest =>
            { st with fieldStack := .display url (text ++ ch.toString) :: rest }
        else st
      | none => st
  else if 0x000B ≤ c ∧ c ≤ 0x000D then
    let (para, out, first) := flushParagraph st.paragraph st.output st.first
    { st with paragraph := para, output := out, first := first }
  else if c = 0x0007 ∨ c = 0x0009 then { st with paragraph := st.paragraph ++ "\t" }
  else if c = 0x001E then { st with paragraph := st.paragraph ++ "-" }
  else if c = 0x001F ∨ c = 0x0002 ∨ c = 0xFEFF then st
  else if 0xDC00 ≤ c ∧ c ≤ 0xDFFF then
    { st with paragraph := st.paragraph ++ (Char.ofNat 0xFFFD).toString }
  else if c < 0x0020 then st
  else
    match charFromU32 c with
    | some ch => { st with paragraph := st.paragraph ++ ch.toString }
    | none => st

/-- Helper for the surrogate-pair completion: push the decoded character
(if `char::from_u32` succeeded) and clear the pending high surrogate. -/
def pushDecoded (st : DocState) (och : Option Char) : DocState :=
  match och with
  | some ch =>
    let (fs, para) := pushCharToFieldOrPara ch st.fieldStack st.paragraph
    { st with
        pendingHigh := none,
        fieldStack := fs,
        paragraph := para }
  | none => { st with pendingHigh := none }

/-- The surrogate-pair completion of the character loop: a pending high
surrogate `hi` followed by a low surrogate `c` pushes the combined
character. -/
def surrogatePush (st : DocState) (hi c : ℕ) : DocState :=
  pushDecoded st (charFromU32 (0x10000 + (hi - 0xD800) * 0x400 + (c - 0xDC00)))

/-- One iteration of the character loop: surrogate-pair handling first,
then the match. -/
def docStep (st : DocState) (c : ℕ) : DocState :=
  match st.pendingHigh with
  | some hi =>
    if 0xDC00 ≤ c ∧ c ≤ 0xDFFF then surrogatePush st hi c
    else
      let (fs, para) :=
        pushCharToFieldOrPara (Char.ofNat 0xFFFD) st.fieldStack st.paragraph
      docMatch
        { st with
            pendingHigh := none,
            fieldStack := fs,
            paragraph := para } c
  | none => docMatch st c

/-- `chars_to_text` (src/doc.rs). -/
def chars_to_text (chars : List ℕ) : String :=
  let st := chars.foldl docStep ⟨"", "", true, 0, [], none⟩
  let st :=
    if st.pendingHigh.isSome then
      { st with paragraph := st.paragraph ++ (Char.ofNat 0xFFFD).toString }
    else st
  (flushParagraph st.paragraph st.output st.first).2.1

/-- `extract_plain` (src/doc.rs), given the bytes of the `/WordDocument`
stream (the OLE2 container layer is the external `cfb` crate). -/
def extract_plain (dh : ℕ → ℕ → Char) (buf : List ℕ) : Except String String :=
  if buf.length < 32 then .error "WordDocument stream too short"
  else
    let flags := le16 (buf.getD 10 0) (buf.getD 11 0)
    if flags &&& 0x0100 ≠ 0 then .error "document is encrypted"
    else
      let lid := le16 (buf.getD 6 0) (buf.getD 7 0)
      let cp := Codepage.lid_to_codepage lid
      let textStart := le32 (buf.getD 24 0) (buf.getD 25 0) (buf.getD 26 0) (buf.getD 27 0)
      let textEnd := le32 (buf.getD 28 0) (buf.getD 29 0) (buf.getD 30 0) (buf.getD 31 0)
      if textStart ≥ buf.length ∨ textEnd > buf.length ∨ textStart ≥ textEnd then
        .error "invalid text boundaries in FIB"
      else
        let textData := (buf.drop textStart).take (textEnd - textStart)
        let chars :=
          if flags &&& 0x1000 ≠ 0 then extract_word8_text dh textData cp
          else extract_8bit_text dh textData cp
        .ok (chars_to_text chars)

end Doc

namespace Xls

def REC_BOF : ℕ := 0x0809
def REC_EOF : ℕ := 0x000A
def REC_BOUNDSHEET : ℕ := 0x0085
def REC_SST : ℕ := 0x00FC
def REC_CONTINUE : ℕ := 0x003C
def REC_LABELSST : ℕ := 0x00FD
def REC_LABEL : ℕ := 0x0204
def REC_RSTRING : ℕ := 0x00D6
def REC_NUMBER : ℕ := 0x0203
def REC_RK : ℕ := 0x027E
def REC_MULRK : ℕ := 0x00BD
def REC_FORMULA : ℕ := 0x0006
def REC_STRING : ℕ := 0x0207
def REC_BOOLERR : ℕ := 0x0205
def REC_FILEPASS : ℕ := 0x002F
def REC_FORMAT : ℕ := 0x041E
def REC_XF : ℕ := 0x00E0
def REC_CODEPAGE : ℕ := 0x0042

def MAX_RECORDS : ℕ := 2000000

/-- `parse_records` (src/xls.rs): chop the stream into (type, data) records;
each iteration consumes at least four bytes, so the stream length bounds the
fuel. -/
def parseRecordsAux : ℕ → List ℕ → ℕ → List (ℕ × List ℕ)
  | 0, _, _ => []
  | fuel + 1, data, count =>
    if data.length < 4 then []
    else
      let recType := le16 (data.getD 0 0) (data.getD 1 0)
      let recLen := le16 (data.getD 2 0) (data.getD 3 0)
      if recType = 0 ∧ recLen = 0 then []
      else
        (recType, (data.drop 4).take recLen) ::
          (if count + 1 ≥ MAX_RECORDS then []
           else parseRecordsAux fuel (data.drop (4 + recLen)) (count + 1))

def parse_records (data : List ℕ) : List (ℕ × List ℕ) :=
  parseRecordsAux (data.length + 1) data 0

/-- Sheet metadata from `BoundSheet8` (src/xls.rs). -/
structure SheetEntry where
  name : String
  bofOffset : ℕ
  visibility : ℕ
  sheetType : ℕ
deriving DecidableEq

/-- A parsed worksheet (src/sheet.rs `Sheet`). -/
structure Sheet where
  name : String
  rows : List (List String)
deriving DecidableEq

/-- `char::decode_utf16` over a list of code units. -/
def decodeUtf16 : List ℕ → String
  | [] => ""
  | [u] =>
    if (0xD800 ≤ u ∧ u ≤ 0xDBFF) ∨ (0xDC00 ≤ u ∧ u ≤ 0xDFFF) then
      (Char.ofNat 0xFFFD).toString
    else (Char.ofNat u).toString
  | u :: v :: rest =>
    if 0xD800 ≤ u ∧ u ≤ 0xDBFF then
      if 0xDC00 ≤ v ∧ v ≤ 0xDFFF then
        (Char.ofNat (0x10000 + (u - 0xD800) * 0x400 + (v - 0xDC00))).toString ++
          decodeUtf16 rest
      else (Char.ofNat 0xFFFD).toString ++ decodeUtf16 (v :: rest)
    else if 0xDC00 ≤ u ∧ u ≤ 0xDFFF then
      (Char.ofNat 0xFFFD).toString ++ decodeUtf16 (v :: rest)
    else (Char.ofNat u).toString ++ decodeUtf16 (v :: rest)

/-- `decode_utf16le` (src/xls.rs). -/
def decode_utf16le (data : List ℕ) : String :=
  decodeUtf16 ((Doc.chunksExact2 data).map fun p => le16 p.1 p.2)

/-- The boundary-skipping cursor advance of `read_biff8_string`: the index
of the first boundary not below `pos`, starting from `bi`. -/
def skipBoundaries (boundaries : List ℕ) (bi pos : ℕ) : ℕ :=
  bi + ((boundaries.drop bi).takeWhile fun b => b < pos).length

/-- Read `k` UTF-16LE code units of character data (the unicode branch of
the read loop); surrogate code units are dropped by `char::from_u32`. -/
def readUtf16Chars (data : List ℕ) : ℕ → ℕ → String × ℕ
  | pos, 0 => ("", pos)
  | pos, k + 1 =>
    if pos + 2 > data.length then ("", pos)
    else
      let code := le16 (data.getD pos 0) (data.getD (pos + 1) 0)
      let rest := readUtf16Chars data (pos + 2) k
      ((match Doc.charFromU32 code with
        | some ch => ch.toString
        | none => "") ++ rest.1, rest.2)

/-- Read `k` compressed (one byte per character) characters. -/
def readCpChars (dh : ℕ → ℕ → Char) (cp : ℕ) (data : List ℕ) :
    ℕ → ℕ → String × ℕ
  | pos, 0 => ("", pos)
  | pos, k + 1 =>
    if pos ≥ data.length then ("", pos)
    else
      let rest := readCpChars dh cp data (pos + 1) k
      ((Codepage.decode_byte dh (data.getD pos 0) cp).toString ++ rest.1, rest.2)

/-- The character-reading loop of `read_biff8_string` (src/xls.rs).  On
certain malformed inputs (a CONTINUE boundary splitting a UTF-16 code unit)
the Rust loop makes no progress and hangs; there the fuel runs out and this
model returns the text read so far.  No claim concerns such inputs. -/
def readLoop (dh : ℕ → ℕ → Char) (cp : ℕ) (data : List ℕ)
    (boundaries : List ℕ) :
    ℕ → ℕ → ℕ → ℕ → Bool → String → String × ℕ
  | 0, _, pos, _, _, acc => (acc, pos)
  | fuel + 1, chRem, pos, bi, cu, acc =>
    if chRem = 0 ∨ pos ≥ data.length then (acc, pos)
    else
      let bi := skipBoundaries boundaries bi pos
      let atBoundary := bi < boundaries.length ∧ boundaries.getD bi 0 = pos
      let cu := if atBoundary then (data.getD pos 0) &&& 0x01 ≠ 0 else cu
      let pos := if atBoundary then pos + 1 else pos
      let bi := if atBoundary then bi + 1 else bi
      let nextBoundary :=
        if bi < boundaries.length then boundaries.getD bi 0 else data.length
      let bytesAvailable := nextBoundary - pos
      if cu then
        let charsToRead := min chRem (bytesAvailable / 2)
        let r := readUtf16Chars data pos charsToRead
        readLoop dh cp data boundaries fuel (chRem - charsToRead) r.2 bi cu (acc ++ r.1)
      else
        let charsToRead := min chRem bytesAvailable
        let r := readCpChars dh cp data pos charsToRead
        readLoop dh cp data boundaries fuel (chRem - charsToRead) r.2 bi cu (acc ++ r.1)

/-- `read_biff8_string` (src/xls.rs). -/
def read_biff8_string (dh : ℕ → ℕ → Char) (data : List ℕ) (start : ℕ)
    (boundaries : List ℕ) (cp : ℕ) : String × ℕ :=
  if start + 3 > data.length then ("", data.length)
  else
    let charCount := le16 (data.getD start 0) (data.getD (start + 1) 0)
    let flags := data.getD (start + 2) 0
    let pos := start + 3
    let isUnicode := flags &&& 0x01 ≠ 0
    let hasExt := flags &&& 0x04 ≠ 0
    let hasRich := flags &&& 0x08 ≠ 0
    if hasRich ∧ pos + 2 > data.length then ("", data.length)
    else
      let richRuns := if hasRich then le16 (data.getD pos 0) (data.getD (pos + 1) 0) else 0
      let pos := if hasRich then pos + 2 else pos
      if hasExt ∧ pos + 4 > data.length then ("", data.length)
      else
        let extLen :=
          if hasExt then
            le32 (data.getD pos 0) (data.getD (pos + 1) 0) (data.getD (pos + 2) 0)
              (data.getD (pos + 3) 0)
          else 0
        let pos := if hasExt then pos + 4 else pos
        let r := readLoop dh cp data boundaries
          (data.length + charCount + boundaries.length + 1) charCount pos 0 isUnicode ""
        (r.1, r.2 + richRuns * 4 + extLen)

/-- The string-reading loop of `parse_sst` (src/xls.rs). -/
def parseSstAux (dh : ℕ → ℕ → Char) (data : List ℕ) (boundaries : List ℕ)
    (cp : ℕ) : ℕ → ℕ → List String
  | 0, _ => []
  | k + 1, pos =>
    if pos + 3 > data.length then []
    else
      let r := read_biff8_string dh data pos boundaries cp
      r.1 :: parseSstAux dh data boundaries cp k r.2

/-- `parse_sst` (src/xls.rs). -/
def parse_sst (dh : ℕ → ℕ → Char) (data : List ℕ) (boundaries : List ℕ)
    (cp : ℕ) : List String :=
  if data.length < 8 then []
  else
    let uniqueCount :=
      le32 (data.getD 4 0) (data.getD 5 0) (data.getD 6 0) (data.getD 7 0)
    parseSstAux dh data boundaries cp uniqueCount 8

/-- `parse_boundsheet` (src/xls.rs). -/
def parse_boundsheet (dh : ℕ → ℕ → Char) (data : List ℕ) (cp : ℕ) :
    Option SheetEntry :=
  if data.length < 8 then none
  else
    let bofOffset :=
      le32 (data.getD 0 0) (data.getD 1 0) (data.getD 2 0) (data.getD 3 0)
    let visibility := data.getD 4 0
    let sheetType := data.getD 5 0
    let strLen := data.getD 6 0
    let options := data.getD 7 0
    if options &&& 0x01 ≠ 0 then
      if data.length < 8 + strLen * 2 then none
      else some ⟨decode_utf16le ((data.drop 8).take (strLen * 2)), bofOffset,
        visibility, sheetType⟩
    else
      if data.length < 8 + strLen then none
      else some ⟨String.mk (((data.drop 8).take strLen).map
        fun b => Codepage.decode_byte dh b cp), bofOffset, visibility, sheetType⟩

/-- `parse_format_record` (src/xls.rs). -/
def parse_format_record (dh : ℕ → ℕ → Char) (data : List ℕ) (cp : ℕ) :
    Option (ℕ × String) :=
  if data.length < 5 then none
  else some (le16 (data.getD 0 0) (data.getD 1 0),
    (read_biff8_string dh data 2 [] cp).1)

/-- `BUILTIN_DATE_FMT_IDS` (src/dateconv.rs). -/
def BUILTIN_DATE_FMT_IDS : List ℕ :=
  [14, 15, 16, 17, 18, 19, 20, 21, 22,
   27, 28, 29, 30, 31, 32, 33, 34, 35, 36,
   45, 46, 47,
   50, 51, 52, 53, 54, 55, 56, 57, 58]

/-- `is_date_format_id` (src/dateconv.rs). -/
def is_date_format_id (id : ℕ) : Bool := BUILTIN_DATE_FMT_IDS.contains id

/-- `resolve_date_styles` (src/dateconv.rs). -/
def resolve_date_styles (fmtIds : List ℕ) (customFormats : List (ℕ × String)) :
    List Bool :=
  fmtIds.map fun fmtId =>
    if is_date_format_id fmtId then true
    else customFormats.any fun ic => ic.1 = fmtId ∧ Dateconv.is_date_format_string ic.2

/-- `XfStyles::is_date_xf` (src/xls.rs). -/
def is_date_xf (isDate : List Bool) (xfIdx : ℕ) : Bool :=
  ((isDate.drop xfIdx).headD false)

/-- The mutable state of the `parse_globals` loop (src/xls.rs). -/
structure GState where
  sst : List String
  sheets : List SheetEntry
  customFormats : List (ℕ × String)
  xfFmtIds : List ℕ
  cp : ℕ
deriving DecidableEq

/-- The cumulative CONTINUE boundaries collected while merging an SST
record with its CONTINUE records. -/
def cumLengths (base : ℕ) : List (List ℕ) → List ℕ
  | [] => []
  | c :: rest => (base + c.length) :: cumLengths (base + c.length) rest

/-- The record loop of `parse_globals` (src/xls.rs); an SST record consumes
its trailing CONTINUE records, every iteration consumes at least one
record, and the loop stops at the first EOF. -/
def parseGlobalsLoop (dh : ℕ → ℕ → Char) :
    ℕ → List (ℕ × List ℕ) → GState → Except String GState
  | 0, _, g => .ok g
  | _ + 1, [], g => .ok g
  | fuel + 1, (rt, d) :: rest, g =>
    if rt = REC_FILEPASS then .error "document is encrypted"
    else if rt = REC_CODEPAGE then
      parseGlobalsLoop dh fuel rest
        { g with cp := if d.length ≥ 2 then le16 (d.getD 0 0) (d.getD 1 0) else g.cp }
    else if rt = REC_FORMAT then
      parseGlobalsLoop dh fuel rest
        { g with
            customFormats :=
              match parse_format_record dh d g.cp with
              | some idCode => g.customFormats ++ [idCode]
              | none => g.customFormats }
    else if rt = REC_XF then
      parseGlobalsLoop dh fuel rest
        { g with
            xfFmtIds :=
              if d.length ≥ 4 then g.xfFmtIds ++ [le16 (d.getD 2 0) (d.getD 3 0)]
              else g.xfFmtIds }
    else if rt = REC_SST then
      let contin := rest.takeWhile fun r => r.1 = REC_CONTINUE
      let rest2 := rest.dropWhile fun r => r.1 = REC_CONTINUE
      let combined := d ++ contin.flatMap (·.2)
      let boundaries := d.length :: cumLengths d.length (contin.map (·.2))
      parseGlobalsLoop dh fuel rest2
        { g with sst := parse_sst dh combined boundaries g.cp }
    else if rt = REC_BOUNDSHEET then
      parseGlobalsLoop dh fuel rest
        { g with
            sheets :=
              match parse_boundsheet dh d g.cp with
              | some entry => g.sheets ++ [entry]
              | none => g.sheets }
    else if rt = REC_EOF then .ok g
    else parseGlobalsLoop dh fuel rest g

/-- `parse_globals` (src/xls.rs): (sst, sheet entries, date-style table,
codepage), or the encryption error. -/
def parse_globals (dh : ℕ → ℕ → Char) (records : List (ℕ × List ℕ)) :
    Except String (List String × List SheetEntry × List Bool × ℕ) :=
  (parseGlobalsLoop dh (records.length + 1) records ⟨[], [], [], [], 1252⟩).map
    fun g => (g.sst, g.sheets, resolve_date_styles g.xfFmtIds g.customFormats, g.cp)

-- ── Numeric cell values ────────────────────────────────────────────

/-- IEEE 754 binary64 decoding of a 64-bit pattern into the `FVal` model. -/
def f64FromBits (bits : ℕ) : Dateconv.FVal :=
  let sign : ℕ := bits / 2 ^ 63
  let ex : ℕ := (bits / 2 ^ 52) % 2 ^ 11
  let mant : ℕ := bits % 2 ^ 52
  if ex = 2047 then
    if mant = 0 then (if sign = 1 then .neginf else .inf) else .nan
  else
    let m : ℤ := if ex = 0 then (mant : ℤ) else (2 : ℤ) ^ 52 + (mant : ℤ)
    let sm : ℤ := if sign = 1 then -m else m
    if ex ≥ 1075 then .fin (sm * (2 : ℤ) ^ (ex - 1075)) 1
    else if ex = 0 then .fin sm (2 ^ 1074)
    else .fin sm (2 ^ (1075 - ex))

def le64 (b : List ℕ) : ℕ :=
  (b.take 8).reverse.foldl (fun acc x => acc * 256 + x) 0

/-- `f64::from_le_bytes`. -/
def f64FromLeBytes (b : List ℕ) : Dateconv.FVal := f64FromBits (le64 b)

/-- Division of an `FVal` by 100 (the RK scaling flag).  Exact on the
rational model; the claims never evaluate a scaled RK value. -/
def fvalDiv100 : Dateconv.FVal → Dateconv.FVal
  | .fin n d => .fin n (d * 100)
  | v => v

/-- `decode_rk` (src/xls.rs). -/
def decode_rk (rk : ℕ) : Dateconv.FVal :=
  let val :=
    if rk &&& 0x02 ≠ 0 then
      Dateconv.FVal.fin ((if rk ≥ 2 ^ 31 then (rk : ℤ) - 2 ^ 32 else (rk : ℤ)) / 4) 1
    else f64FromBits ((rk &&& 0xFFFFFFFC) * 2 ^ 32)
  if rk &&& 0x01 ≠ 0 then fvalDiv100 val else val

/-- Rendering model for the non-integral branch of `format_number`
(Rust `format!` with ten decimals, trailing zeros then the dot stripped).
Ties are rounded up here; no claim depends on this branch. -/
def formatFloat10 (n : ℤ) (d : ℕ) : String :=
  let scaled : ℤ := (2 * n * 10 ^ 10 + d) / (2 * d)
  let sgn := if scaled < 0 then "-" else ""
  let a := scaled.natAbs
  let ip := a / 10 ^ 10
  let fp := a % 10 ^ 10
  let fpStr := String.mk (List.replicate (10 - (toString fp).length) '0') ++ toString fp
  let body := toString ip ++ "." ++ fpStr
  let body := String.mk (body.data.reverse.dropWhile (fun c => c = '0')).reverse
  let body := String.mk (body.data.reverse.dropWhile (fun c => c = '.')).reverse
  sgn ++ body

/-- `format_number` (src/xls.rs): integral values within the exact integer
range of f64 print without a decimal point. -/
def format_number (v : Dateconv.FVal) : String :=
  match v with
  | .nan => "NaN"
  | .inf => "inf"
  | .neginf => "-inf"
  | .fin n d =>
    if (d : ℤ) ∣ n ∧ |n| < 2 ^ 53 * (d : ℤ) then toString (n / (d : ℤ))
    else formatFloat10 n d

/-- `format_maybe_date` (src/xls.rs). -/
def format_maybe_date (v : Dateconv.FVal) (ixfe : ℕ) (xfStyles : List Bool) : String :=
  if is_date_xf xfStyles ixfe then Dateconv.serialToIso v else format_number v

-- ── Cell records and the sheet substream ───────────────────────────

structure Cell where
  row : ℕ
  col : ℕ
  value : String
deriving DecidableEq

/-- `GridBuilder` (src/xls.rs). -/
structure GridBuilder where
  cells : List Cell
  maxRow : ℕ
  maxCol : ℕ
deriving DecidableEq

def GridBuilder.push (g : GridBuilder) (row col : ℕ) (value : String) : GridBuilder :=
  { cells := g.cells ++ [⟨row, col, value⟩],
    maxRow := if row + 1 > g.maxRow then row + 1 else g.maxRow,
    maxCol := if col + 1 > g.maxCol then col + 1 else g.maxCol }

def handle_labelsst (recData : List ℕ) (sst : List String) (grid : GridBuilder) :
    GridBuilder :=
  if recData.length ≥ 10 then
    let row := le16 (recData.getD 0 0) (recData.getD 1 0)
    let col := le16 (recData.getD 2 0) (recData.getD 3 0)
    let sstIdx := le32 (recData.getD 6 0) (recData.getD 7 0) (recData.getD 8 0)
      (recData.getD 9 0)
    grid.push row col ((sst.drop sstIdx).headD "")
  else grid

def handle_label (dh : ℕ → ℕ → Char) (recData : List ℕ) (grid : GridBuilder)
    (cp : ℕ) : GridBuilder :=
  if recData.length ≥ 8 then
    grid.push (le16 (recData.getD 0 0) (recData.getD 1 0))
      (le16 (recData.getD 2 0) (recData.getD 3 0))
      (read_biff8_string dh recData 6 [] cp).1
  else grid

def handle_number (recData : List ℕ) (grid : GridBuilder) (xfStyles : List Bool) :
    GridBuilder :=
  if recData.length ≥ 14 then
    let ixfe := le16 (recData.getD 4 0) (recData.getD 5 0)
    let val := f64FromLeBytes ((recData.drop 6).take 8)
    grid.push (le16 (recData.getD 0 0) (recData.getD 1 0))
      (le16 (recData.getD 2 0) (recData.getD 3 0)) (format_maybe_date val ixfe xfStyles)
  else grid

def handle_rk (recData : List ℕ) (grid : GridBuilder) (xfStyles : List Bool) :
    GridBuilder :=
  if recData.length ≥ 10 then
    let ixfe := le16 (recData.getD 4 0) (recData.getD 5 0)
    let rk := le32 (recData.getD 6 0) (recData.getD 7 0) (recData.getD 8 0)
      (recData.getD 9 0)
    grid.push (le16 (recData.getD 0 0) (recData.getD 1 0))
      (le16 (recData.getD 2 0) (recData.getD 3 0))
      (format_maybe_date (decode_rk rk) ixfe xfStyles)
  else grid

def mulrkLoop (recData : List ℕ) (xfStyles : List Bool) (row : ℕ) :
    ℕ → ℕ → ℕ → GridBuilder → GridBuilder
  | 0, _, _, grid => grid
  | count + 1, c, pos, grid =>
    if pos + 6 > recData.length - 2 then grid
    else
      let ixfe := le16 (recData.getD pos 0) (recData.getD (pos + 1) 0)
      let rk := le32 (recData.getD (pos + 2) 0) (recData.getD (pos + 3) 0)
        (recData.getD (pos + 4) 0) (recData.getD (pos + 5) 0)
      mulrkLoop recData xfStyles row count (c + 1) (pos + 6)
        (grid.push row c (format_maybe_date (decode_rk rk) ixfe xfStyles))

def handle_mulrk (recData : List ℕ) (grid : GridBuilder) (xfStyles : List Bool) :
    GridBuilder :=
  if recData.length ≥ 6 then
    let row := le16 (recData.getD 0 0) (recData.getD 1 0)
    let firstCol := le16 (recData.getD 2 0) (recData.getD 3 0)
    let lastCol := le16 (recData.getD (recData.length - 2) 0)
      (recData.getD (recData.length - 1) 0)
    mulrkLoop recData xfStyles row (lastCol + 1 - firstCol) firstCol 4 grid
  else grid

def handle_formula (recData : List ℕ) (grid : GridBuilder)
    (pending : Option (ℕ × ℕ)) (xfStyles : List Bool) :
    GridBuilder × Option (ℕ × ℕ) :=
  if recData.length < 20 then (grid, pending)
  else
    let row := le16 (recData.getD 0 0) (recData.getD 1 0)
    let col := le16 (recData.getD 2 0) (recData.getD 3 0)
    let ixfe := le16 (recData.getD 4 0) (recData.getD 5 0)
    if recData.getD 12 0 = 0xFF ∧ recData.getD 13 0 = 0xFF then
      if recData.getD 6 0 = 0 then (grid, some (row, col))
      else if recData.getD 6 0 = 1 then
        (grid.push row col (if recData.getD 8 0 ≠ 0 then "TRUE" else "FALSE"), pending)
      else if recData.getD 6 0 = 3 then (grid.push row col "", pending)
      else (grid, pending)
    else
      let val := f64FromLeBytes ((recData.drop 6).take 8)
      (grid.push row col (format_maybe_date val ixfe xfStyles), pending)

def handle_string (dh : ℕ → ℕ → Char) (recData : List ℕ) (grid : GridBuilder)
    (pending : Option (ℕ × ℕ)) (cp : ℕ) : GridBuilder × Option (ℕ × ℕ) :=
  match pending with
  | none => (grid, none)
  | some rc =>
    if recData.length ≥ 3 then
      (grid.push rc.1 rc.2 (read_biff8_string dh recData 0 [] cp).1, none)
    else (grid, none)

def handle_boolerr (recData : List ℕ) (grid : GridBuilder) : GridBuilder :=
  if recData.length ≥ 8 then
    if recData.getD 7 0 = 0 then
      grid.push (le16 (recData.getD 0 0) (recData.getD 1 0))
        (le16 (recData.getD 2 0) (recData.getD 3 0))
        (if recData.getD 6 0 ≠ 0 then "TRUE" else "FALSE")
    else grid
  else grid

/-- The `match rec_type` body of the per-sheet record loop
(src/xls.rs, `parse_sheet_substream`), for one record that is not EOF.
Note which arms touch `pending_string_cell`: only FORMULA sets it, STRING
takes it, and the default arm clears it for record types other than
CONTINUE; the dedicated cell-record handlers leave it untouched. -/
def sheetStep (dh : ℕ → ℕ → Char) (sst : List String) (xfStyles : List Bool)
    (cp : ℕ) (s : GridBuilder × Option (ℕ × ℕ)) (rec : ℕ × List ℕ) :
    GridBuilder × Option (ℕ × ℕ) :=
  let (grid, pending) := s
  let (rt, recData) := rec
  if rt = REC_LABELSST then (handle_labelsst recData sst grid, pending)
  else if rt = REC_LABEL ∨ rt = REC_RSTRING then (handle_label dh recData grid cp, pending)
  else if rt = REC_NUMBER then (handle_number recData grid xfStyles, pending)
  else if rt = REC_RK then (handle_rk recData grid xfStyles, pending)
  else if rt = REC_MULRK then (handle_mulrk recData grid xfStyles, pending)
  else if rt = REC_FORMULA then handle_formula recData grid pending xfStyles
  else if rt = REC_STRING then handle_string dh recData grid pending cp
  else if rt = REC_BOOLERR then (handle_boolerr recData grid, pending)
  else (grid, if rt ≠ REC_CONTINUE then none else pending)

/-- The per-sheet record loop run over an explicit record sequence,
stopping at EOF — the record-level view of `parse_sheet_substream`. -/
def runSheetRecords (dh : ℕ → ℕ → Char) (sst : List String)
    (xfStyles : List Bool) (cp : ℕ) :
    List (ℕ × List ℕ) → GridBuilder × Option (ℕ × ℕ) → GridBuilder × Option (ℕ × ℕ)
  | [], s => s
  | (rt, d) :: rest, s =>
    if rt = REC_EOF then s
    else runSheetRecords dh sst xfStyles cp rest (sheetStep dh sst xfStyles cp s (rt, d))

/-- `cells_to_grid` (src/xls.rs): write each cell into a dense
`maxRow × maxCol` grid of empty strings; refuse oversized grids. -/
def MAX_GRID_CELLS : ℕ := 1000000

def set2d (g : List (List String)) (r c : ℕ) (v : String) : List (List String) :=
  g.set r (((g.drop r).headD []).set c v)

def cells_to_grid (cells : List Cell) (maxRow maxCol : ℕ) : List (List String) :=
  if maxRow * maxCol > MAX_GRID_CELLS then []
  else
    cells.foldl
      (fun g cell =>
        if cell.row < maxRow ∧ cell.col < maxCol then set2d g cell.row cell.col cell.value
        else g)
      (List.replicate maxRow (List.replicate maxCol ""))

def GridBuilder.intoGrid (g : GridBuilder) : List (List String) :=
  cells_to_grid g.cells g.maxRow g.maxCol

/-- The byte-level loop of `parse_sheet_substream` (src/xls.rs); each
iteration consumes at least four bytes. -/
def sheetLoopAux (dh : ℕ → ℕ → Char) (sst : List String) (xfStyles : List Bool)
    (cp : ℕ) (data : List ℕ) :
    ℕ → ℕ → GridBuilder → Option (ℕ × ℕ) → GridBuilder
  | 0, _, grid, _ => grid
  | fuel + 1, offset, grid, pending =>
    if offset + 4 > data.length then grid
    else
      let rt := le16 (data.getD offset 0) (data.getD (offset + 1) 0)
      let rl := le16 (data.getD (offset + 2) 0) (data.getD (offset + 3) 0)
      let recEnd := min (offset + 4 + rl) data.length
      let recData := (data.drop (offset + 4)).take rl
      if rt = REC_EOF then grid
      else
        let s := sheetStep dh sst xfStyles cp (grid, pending) (rt, recData)
        sheetLoopAux dh sst xfStyles cp data fuel recEnd s.1 s.2

/-- `parse_sheet_substream` (src/xls.rs). -/
def parse_sheet_substream (dh : ℕ → ℕ → Char) (data : List ℕ) (bofOffset : ℕ)
    (sst : List String) (xfStyles : List Bool) (cp : ℕ) : List (List String) :=
  if bofOffset + 4 > data.length then []
  else if le16 (data.getD bofOffset 0) (data.getD (bofOffset + 1) 0) ≠ REC_BOF then []
  else
    let recLen := le16 (data.getD (bofOffset + 2) 0) (data.getD (bofOffset + 3) 0)
    (sheetLoopAux dh sst xfStyles cp data (data.length + 1) (bofOffset + 4 + recLen)
      ⟨[], 0, 0⟩ none).intoGrid

/-- `parse_xls` (src/xls.rs), given the bytes of the `/Workbook` stream
(the OLE2 container layer is the external `cfb` crate). -/
def parse_xls (dh : ℕ → ℕ → Char) (buf : List ℕ) : Except String (List Sheet) :=
  let records := parse_records buf
  match parse_globals dh records with
  | .error e => .error e
  | .ok (sst, sheetEntries, xfStyles, cp) =>
    .ok ((sheetEntries.filter fun e => e.sheetType = 0 ∧ e.visibility = 0).map
      fun e => ⟨e.name, parse_sheet_substream dh buf e.bofOffset sst xfStyles cp⟩)

/-- `skip_empty_sheet` (src/sheet.rs). -/
def skip_empty_sheet (s : Sheet) : Bool :=
  s.rows.all fun row => row.all fun cell => rustTrim cell = ""

/-- `render_plain` (src/sheet.rs). -/
def render_plain (sheets : List Sheet) : String :=
  let multiple := sheets.length > 1
  String.join (sheets.enum.map fun isheet =>
    if skip_empty_sheet isheet.2 then ""
    else
      (if multiple then
        (if isheet.1 > 0 then "\n" else "") ++ "--- " ++ isheet.2.name ++ " ---\n"
       else "") ++
      String.join (isheet.2.rows.map fun row =>
        let line := rustTrimEnd (String.intercalate "\t" row)
        if ¬ line = "" then line ++ "\n" else ""))

/-- `extract_plain` (src/xls.rs), from the `/Workbook` stream bytes. -/
def extract_plain (dh : ℕ → ℕ → Char) (buf : List ℕ) : Except String String :=
  (parse_xls dh buf).map render_plain

/-- The claim's reading of the FILEPASS rule: some FILEPASS record occurs
in the workbook globals, i.e. before the first EOF record. -/
def hasFilepassBeforeEof : List (ℕ × List ℕ) → Bool
  | [] => false
  | (rt, _) :: rest =>
    if rt = REC_FILEPASS then true
    else if rt = REC_EOF then false
    else hasFilepassBeforeEof rest

/-- A `GridBuilder` produced by a sequence of `push` calls, as the sheet
parser does while walking cell records. -/
def buildCells (pushes : List (ℕ × ℕ × String)) : GridBuilder :=
  pushes.foldl (fun g p => g.push p.1 p.2.1 p.2.2) ⟨[], 0, 0⟩

/-- The value of the dense grid at (r, c), read the way `cells_to_grid`
writes it. -/
def gridAt (g : List (List String)) (r c : ℕ) : String :=
  ((g.drop r).headD []).getD c ""

/-- A structurally valid `/Workbook` stream whose single LABEL cell text is
the control character U+0001: globals BOF, a BoundSheet8 entry pointing at
offset 21, EOF; then the sheet substream BOF, the LABEL record with a
one-character unicode string 0x0001, EOF. -/
def controlCharWorkbook : List ℕ :=
  [0x09, 0x08, 0x00, 0x00] ++
  [0x85, 0x00, 0x09, 0x00, 21, 0, 0, 0, 0, 0, 1, 0, 83] ++
  [0x0A, 0x00, 0x00, 0x00] ++
  [0x09, 0x08, 0x00, 0x00] ++
  [0x04, 0x02, 0x0B, 0x00, 0, 0, 0, 0, 0, 0, 1, 0, 1, 1, 0] ++
  [0x0A, 0x00, 0x00, 0x00]

end Xls

namespace Doc

/-- The output character set the claim allows: tab, newline, or a
non-control character. -/
def charOk (c : Char) : Prop := c = '\t' ∨ c = '\n' ∨ 0x20 ≤ c.toNat

/-- Characters allowed inside the paragraph and field buffers of the
character loop (newlines are introduced only by the flush). -/
def bufCharOk (c : Char) : Prop := c = '\t' ∨ 0x20 ≤ c.toNat

def bufOk (s : String) : Prop := ∀ c ∈ s.data, bufCharOk c

def outOk (s : String) : Prop := ∀ c ∈ s.data, charOk c

def fsOk : FieldState → Prop
  | .instruction buf => bufOk buf
  | .display url text => bufOk text ∧ ∀ u, url = some u → bufOk u

def stOk (st : DocState) : Prop :=
  outOk st.output ∧ bufOk st.paragraph ∧ ∀ f ∈ st.fieldStack, fsOk f

end Doc

-- ════════════════════════════════════════════════════════════════════
-- THEOREMS
-- ════════════════════════════════════════════════════════════════════

namespace Dateconv

theorem daysSpan_nonneg (k : ℕ) : ∀ y : ℤ, 0 ≤ daysSpan y k := by
  induction k with
  | zero => intro y; simp [daysSpan]
  | succ k ih =>
    intro y
    have h := ih (y + 1)
    simp only [daysSpan]
    split <;> omega

theorem yearLoop_advance (k : ℕ) :
    ∀ (fuel : ℕ) (dr y : ℤ), k ≤ fuel → daysSpan y k ≤ dr →
      yearLoop fuel dr y = yearLoop (fuel - k) (dr - daysSpan y k) (y + k) := by
  induction k with
  | zero => intro fuel dr y _ _; simp [daysSpan]
  | succ k ih =>
    intro fuel dr y hk hdr
    obtain ⟨f, rfl⟩ : ∃ f, fuel = f + 1 := ⟨fuel - 1, by omega⟩
    have hspan := daysSpan_nonneg k (y + 1)
    simp only [daysSpan] at hdr ⊢
    rw [yearLoop]
    set D : ℤ := if isLeapYear y then 366 else 365 with hD
    rw [if_neg (by omega), ih f (dr - D) (y + 1) (by omega) (by omega)]
    rw [show f + 1 - (k + 1) = f - k from by omega]
    rw [show dr - (D + daysSpan (y + 1) k) = dr - D - daysSpan (y + 1) k from by ring]
    rw [show (y + ((k + 1 : ℕ) : ℤ)) = y + 1 + (k : ℤ) from by push_cast; ring]

theorem leapsUpto_step (y : ℤ) :
    leapsUpto (y + 1) - leapsUpto y = if isLeapYear y then 1 else 0 := by
  simp only [leapsUpto, isLeapYear, Bool.or_eq_true, Bool.and_eq_true, beq_iff_eq,
    bne_iff_ne, ne_eq]
  split <;> omega

theorem daysSpan_closed (k : ℕ) :
    ∀ y : ℤ, daysSpan y k = 365 * k + (leapsUpto (y + k) - leapsUpto y) := by
  induction k with
  | zero => intro y; simp [daysSpan]
  | succ k ih =>
    intro y
    have hstep := leapsUpto_step y
    simp only [daysSpan, ih (y + 1)]
    push_cast
    rw [show y + ((k : ℤ) + 1) = y + 1 + (k : ℤ) from by ring]
    rcases Bool.dichotomy (isLeapYear y) with hL | hL <;> rw [hL] at hstep ⊢ <;>
      norm_num at hstep ⊢ <;> omega

theorem serialToYmd_big : serialToYmd 2958465 = (9999, 12, 31) := by
  have h1 : yearLoop 8200 2958463 1900 = yearLoop 101 364 9999 := by
    have hspan : daysSpan 1900 8099 = 2958099 := by
      rw [daysSpan_closed]; decide
    have h := yearLoop_advance 8099 8200 2958463 1900 (by omega) (by rw [hspan]; omega)
    rw [hspan] at h
    norm_num at h
    exact h
  have h2 : yearLoop 101 364 9999 = (364, 9999) := by decide
  rw [serialToYmd, if_neg (by decide)]
  norm_num
  rw [h1, h2]
  decide

theorem serialToIso_int (n : ℤ) (h0 : 0 < n) (hcap : n ≤ 2958465) :
    serialToIso (.fin n 1) =
      match serialToYmd n with
      | (year, month, day) =>
        pad4 year ++ "-" ++ pad2 month.toNat ++ "-" ++ pad2 day.toNat := by
  have hdiv : n / ((1 : ℕ) : ℤ) = n := by norm_num
  have hfrac : fracNum n 1 = 0 := by simp [fracNum]
  simp only [serialToIso, hfrac, hdiv]
  rw [if_neg (by omega), if_neg (by omega), if_neg (by omega), if_pos (by norm_num)]

end Dateconv

/-- C1: `serial_to_iso` implements the Excel serial conversion with the
Lotus 1-2-3 bug: serial 1 is 1900-01-01, serial 60 the nonexistent
1900-02-29, serial 61 is 1900-03-01, serial 45292 is 2024-01-01, serial
45292.5 is 2024-01-01 12:00:00, serial 2958465 is 9999-12-31, serial 0.5 is
12:00:00; and every serial that is negative, not finite, or whose day part
exceeds 2958465 yields the integer-or-decimal fallback string rather than a
date. -/
theorem c1_serial_to_iso :
    Dateconv.serialToIso (.fin 1 1) = "1900-01-01" ∧
    Dateconv.serialToIso (.fin 60 1) = "1900-02-29" ∧
    Dateconv.serialToIso (.fin 61 1) = "1900-03-01" ∧
    Dateconv.serialToIso (.fin 45292 1) = "2024-01-01" ∧
    Dateconv.serialToIso (.fin 90585 2) = "2024-01-01 12:00:00" ∧
    Dateconv.serialToIso (.fin 2958465 1) = "9999-12-31" ∧
    Dateconv.serialToIso (.fin 1 2) = "12:00:00" ∧
    ∀ v : Dateconv.FVal, Dateconv.fallbackTrigger v →
      Dateconv.serialToIso v = Dateconv.formatFallback v := by
  refine ⟨by decide, by decide, by decide, by decide, by decide, ?_, by decide, ?_⟩
  · rw [Dateconv.serialToIso_int 2958465 (by norm_num) (by norm_num),
      Dateconv.serialToYmd_big]
    decide
  · intro v hv
    match v with
    | .nan => rfl
    | .inf => rfl
    | .neginf => rfl
    | .fin num den =>
      rcases hv with hneg | hbig
      · simp only [Dateconv.serialToIso, if_pos hneg]
      · have hnn : ¬ num < 0 := by
          intro hlt
          rcases Nat.eq_zero_or_pos den with h0 | hpos
          · subst h0
            rw [Int.natCast_zero, Int.ediv_zero] at hbig
            omega
          · have hd : (0 : ℤ) < (den : ℤ) := by exact_mod_cast hpos
            have h := Int.ediv_le_ediv hd (le_of_lt hlt)
            simp at h
            omega
        simp only [Dateconv.serialToIso, if_neg hnn]
        have hne : ¬ num / (den : ℤ) = 0 := by omega
        rw [if_neg hne, if_pos hbig]

/-- Witness for C1: the fallback branch at the concrete serial −1. -/
theorem c1_serial_to_iso_witness :
    Dateconv.serialToIso (.fin (-1) 1) = Dateconv.formatFallback (.fin (-1) 1) :=
  c1_serial_to_iso.2.2.2.2.2.2.2 (.fin (-1) 1) (Or.inl (by decide))

namespace Dateconv

theorem dateTok_not_numTok {c : Char} (h : dateTok c = true) : numTok c = false := by
  simp only [dateTok, decide_eq_true_eq] at h
  rcases h with h | h | h | h | h <;> subst h <;> decide

theorem numTok_eq_false_of_toNat (x : Char) (h1 : x.toNat ≠ 48) (h2 : x.toNat ≠ 35)
    (h3 : x.toNat ≠ 63) : numTok x = false := by
  simp only [numTok, decide_eq_false_iff_not]
  rintro (rfl | rfl | rfl)
  · exact h1 rfl
  · exact h2 rfl
  · exact h3 rfl

theorem numTok_asciiLower (c : Char) : numTok (asciiLower c) = numTok c := by
  unfold asciiLower
  split
  · rename_i h
    obtain ⟨h1, h2⟩ := h
    have hb1 : 65 ≤ c.toNat := by simpa [Char.le_def] using h1
    have hb2 : c.toNat ≤ 90 := by simpa [Char.le_def] using h2
    have hval : (Char.ofNat (c.toNat + 32)).toNat = c.toNat + 32 := by
      unfold Char.ofNat
      split
      · rfl
      · rename_i hbad; exact absurd (Or.inl (by omega)) hbad
    rw [numTok_eq_false_of_toNat _ (by omega) (by omega) (by omega),
      numTok_eq_false_of_toNat _ (by omega) (by omega) (by omega)]
  · rfl

theorem isDateScan_spec (cs : List Char) : ∀ hd hn iq pb : Bool,
    isDateScan hd hn iq pb cs =
      ((hd || (effectiveChars iq pb cs).any fun c => dateTok (asciiLower c)) &&
       !(hn || (effectiveChars iq pb cs).any fun c => numTok (asciiLower c))) := by
  induction cs with
  | nil => intro hd hn iq pb; simp [isDateScan, effectiveChars]
  | cons c cs ih =>
    intro hd hn iq pb
    simp only [isDateScan, effectiveChars]
    split
    · exact ih hd hn iq false
    · split
      · exact ih hd hn iq true
      · split
        · exact ih hd hn (!iq) pb
        · split
          · exact ih hd hn iq pb
          · split
            · rename_i hdate
              rw [ih true hn iq pb]
              simp [hdate, dateTok_not_numTok hdate]
            · split
              · rename_i hnum
                rw [ih hd true iq pb]
                simp [hnum]
              · rename_i hdate hnum
                rw [ih hd hn iq pb]
                simp [Bool.eq_false_iff.mpr hdate, Bool.eq_false_iff.mpr hnum]

end Dateconv

/-- C9: `is_date_format_string fmt` is true iff, skipping characters inside
double-quoted spans and each character immediately following a backslash,
`fmt` contains at least one of the characters y d h s m (case-insensitively)
and none of the characters 0 # ?; together with the concrete examples named
by the specification. -/
theorem c9_is_date_format_string :
    (∀ fmt : String, Dateconv.is_date_format_string fmt = true ↔
      ((∃ c ∈ Dateconv.effectiveChars false false fmt.data,
          Dateconv.dateTok (Dateconv.asciiLower c) = true) ∧
        ∀ c ∈ Dateconv.effectiveChars false false fmt.data,
          c ∉ (['0', '#', '?'] : List Char))) ∧
    Dateconv.is_date_format_string "yyyy-mm-dd" = true ∧
    Dateconv.is_date_format_string "#,##0.00" = false ∧
    Dateconv.is_date_format_string "yyyy-mm-dd #0" = false ∧
    Dateconv.is_date_format_string "\"day\"" = false ∧
    Dateconv.is_date_format_string "yyyy\"年\"mm\"月\"dd" = true := by
  refine ⟨fun fmt => ?_, by decide, by decide, by decide, by decide, by decide⟩
  rw [Dateconv.is_date_format_string, Dateconv.isDateScan_spec]
  simp only [Bool.false_or, Bool.and_eq_true, Bool.not_eq_eq_eq_not, Bool.not_true,
    List.any_eq_true, List.any_eq_false]
  constructor
  · rintro ⟨h1, h2⟩
    refine ⟨h1, fun c hc => ?_⟩
    have := h2 c hc
    rw [Dateconv.numTok_asciiLower] at this
    simp only [Dateconv.numTok, decide_eq_false_iff_not] at this
    simpa using this
  · rintro ⟨h1, h2⟩
    refine ⟨h1, fun c hc => ?_⟩
    rw [Dateconv.numTok_asciiLower]
    simp only [Dateconv.numTok, decide_eq_false_iff_not]
    have := h2 c hc
    simpa using this

/-- Witness for C9: the iff instantiated at the format string yyyy-mm-dd. -/
theorem c9_is_date_format_string_witness :
    (∃ c ∈ Dateconv.effectiveChars false false "yyyy-mm-dd".data,
        Dateconv.dateTok (Dateconv.asciiLower c) = true) ∧
      ∀ c ∈ Dateconv.effectiveChars false false "yyyy-mm-dd".data,
        c ∉ (['0', '#', '?'] : List Char) :=
  (c9_is_date_format_string.1 "yyyy-mm-dd").mp (by decide)

/-- C10: `lid_to_codepage` masks with 0x03FF before matching, so the match
arms for 0x0402 and 0x0404 are unreachable: the function never returns 950;
the Traditional Chinese locale 0x0404 maps to 936 through the Simplified
Chinese primary language 0x0004, and the Bulgarian locale 0x0402 falls to
the 1252 default rather than 1251. -/
theorem c10_lid_to_codepage_unreachable_arms :
    (∀ lid : ℕ, Codepage.lid_to_codepage lid ≠ 950) ∧
    Codepage.lid_to_codepage 0x0404 = 936 ∧
    Codepage.lid_to_codepage 0x0402 = 1252 := by
  refine ⟨fun lid => ?_, by decide, by decide⟩
  have hb : lid &&& 0x03FF < 1024 := Nat.lt_succ_of_le (Nat.and_le_right)
  have hall : ∀ p : ℕ, p < 1024 → Codepage.lidPrimaryMatch p ≠ 950 := by decide
  exact hall _ hb

theorem head?_of_take_eq_cons {l : List ℕ} {n a : ℕ} {r : List ℕ}
    (h : l.take n = a :: r) : l.head? = some a := by
  cases l with
  | nil => simp at h
  | cons x xs =>
    cases n with
    | zero => simp at h
    | succ n => simp only [List.take_succ_cons, List.cons.injEq] at h; simp [h.1]

theorem length_ge_of_take_eq {l m : List ℕ} {n : ℕ} (h : l.take n = m)
    (hm : m.length = n) : n ≤ l.length := by
  have := congrArg List.length h
  simp [List.length_take] at this
  omega

/-- C2: `detect_format` classifies by magic bytes and internal structure:
OLE2 inputs become Doc when a /WordDocument stream exists, Xls when instead
a /Workbook or /Book stream exists, an error otherwise; %PDF- inputs (tested
after OLE2) become Pdf; ZIP inputs become Docx, Xlsx or Pptx according to
which marker part exists, testing word/document.xml, then xl/workbook.xml,
then ppt/presentation.xml, an error when none exists; and inputs matching no
magic are an error. -/
theorem c2_detect_format :
    (∀ (data : List ℕ) (ss : List String) (zs : Option (List String)),
      data.take 8 = Main.OLE2_MAGIC → "/WordDocument" ∈ ss →
      Main.detect_format data (some ss) zs = .ok .Doc) ∧
    (∀ (data : List ℕ) (ss : List String) (zs : Option (List String)),
      data.take 8 = Main.OLE2_MAGIC → "/WordDocument" ∉ ss →
      ("/Workbook" ∈ ss ∨ "/Book" ∈ ss) →
      Main.detect_format data (some ss) zs = .ok .Xls) ∧
    (∀ (data : List ℕ) (ss : List String) (zs : Option (List String)),
      data.take 8 = Main.OLE2_MAGIC → "/WordDocument" ∉ ss → "/Workbook" ∉ ss →
      "/Book" ∉ ss →
      Main.detect_format data (some ss) zs =
        .error "OLE2 file is not a .doc or .xls document") ∧
    (∀ (data : List ℕ) (cf : Option (List String)) (zf : Option (List String)),
      data.take 5 = Main.PDF_MAGIC → Main.detect_format data cf zf = .ok .Pdf) ∧
    (∀ (data : List ℕ) (cf : Option (List String)) (ns : List String),
      data.take 4 = Main.ZIP_MAGIC → "word/document.xml" ∈ ns →
      Main.detect_format data cf (some ns) = .ok .Docx) ∧
    (∀ (data : List ℕ) (cf : Option (List String)) (ns : List String),
      data.take 4 = Main.ZIP_MAGIC → "word/document.xml" ∉ ns →
      "xl/workbook.xml" ∈ ns →
      Main.detect_format data cf (some ns) = .ok .Xlsx) ∧
    (∀ (data : List ℕ) (cf : Option (List String)) (ns : List String),
      data.take 4 = Main.ZIP_MAGIC → "word/document.xml" ∉ ns →
      "xl/workbook.xml" ∉ ns → "ppt/presentation.xml" ∈ ns →
      Main.detect_format data cf (some ns) = .ok .Pptx) ∧
    (∀ (data : List ℕ) (cf : Option (List String)) (ns : List String),
      data.take 4 = Main.ZIP_MAGIC → "word/document.xml" ∉ ns →
      "xl/workbook.xml" ∉ ns → "ppt/presentation.xml" ∉ ns →
      Main.detect_format data cf (some ns) =
        .error "ZIP archive is not a .docx, .xlsx, or .pptx file") ∧
    (∀ (data : List ℕ) (cf zf : Option (List String)),
      ¬ data.take 8 = Main.OLE2_MAGIC → ¬ data.take 5 = Main.PDF_MAGIC →
      ¬ data.take 4 = Main.ZIP_MAGIC →
      Main.detect_format data cf zf =
        .error "not a supported document (unrecognized format)") := by
  have hole : ∀ (data : List ℕ), data.take 8 = Main.OLE2_MAGIC →
      data.length ≥ 8 ∧ data.take 8 = Main.OLE2_MAGIC := by
    intro data h; exact ⟨length_ge_of_take_eq h (by decide), h⟩
  have hpdfole : ∀ (data : List ℕ), data.take 5 = Main.PDF_MAGIC →
      ¬ (data.length ≥ 8 ∧ data.take 8 = Main.OLE2_MAGIC) := by
    rintro data h ⟨-, h8⟩
    have h1 := head?_of_take_eq_cons h
    have h2 := head?_of_take_eq_cons h8
    rw [h1] at h2
    simp at h2
  have hzipole : ∀ (data : List ℕ), data.take 4 = Main.ZIP_MAGIC →
      ¬ (data.length ≥ 8 ∧ data.take 8 = Main.OLE2_MAGIC) := by
    rintro data h ⟨-, h8⟩
    have h1 := head?_of_take_eq_cons h
    have h2 := head?_of_take_eq_cons h8
    rw [h1] at h2
    simp at h2
  have hzippdf : ∀ (data : List ℕ), data.take 4 = Main.ZIP_MAGIC →
      ¬ (data.length ≥ 5 ∧ data.take 5 = Main.PDF_MAGIC) := by
    rintro data h ⟨-, h5⟩
    have h1 := head?_of_take_eq_cons h
    have h2 := head?_of_take_eq_cons h5
    rw [h1] at h2
    simp at h2
  refine ⟨?_, ?_, ?_, ?_, ?_, ?_, ?_, ?_, ?_⟩
  · intro data ss zs h8 hwd
    rw [Main.detect_format.eq_def, if_pos (hole data h8)]
    simp [hwd]
  · intro data ss zs h8 hwd hwb
    rw [Main.detect_format.eq_def, if_pos (hole data h8)]
    simp [hwd, hwb]
  · intro data ss zs h8 hwd hwb hbk
    rw [Main.detect_format.eq_def, if_pos (hole data h8)]
    simp [hwd, hwb, hbk]
  · intro data cf zf h5
    rw [Main.detect_format.eq_def, if_neg (hpdfole data h5),
      if_pos ⟨length_ge_of_take_eq h5 (by decide), h5⟩]
  · intro data cf ns h4 hw
    rw [Main.detect_format.eq_def, if_neg (hzipole data h4), if_neg (hzippdf data h4),
      if_pos ⟨length_ge_of_take_eq h4 (by decide), h4⟩]
    simp [hw]
  · intro data cf ns h4 hw hx
    rw [Main.detect_format.eq_def, if_neg (hzipole data h4), if_neg (hzippdf data h4),
      if_pos ⟨length_ge_of_take_eq h4 (by decide), h4⟩]
    simp [hw, hx]
  · intro data cf ns h4 hw hx hp
    rw [Main.detect_format.eq_def, if_neg (hzipole data h4), if_neg (hzippdf data h4),
      if_pos ⟨length_ge_of_take_eq h4 (by decide), h4⟩]
    simp [hw, hx, hp]
  · intro data cf ns h4 hw hx hp
    rw [Main.detect_format.eq_def, if_neg (hzipole data h4), if_neg (hzippdf data h4),
      if_pos ⟨length_ge_of_take_eq h4 (by decide), h4⟩]
    simp [hw, hx, hp]
  · intro data cf zf h8 h5 h4
    rw [Main.detect_format.eq_def, if_neg (by rintro ⟨-, h⟩; exact h8 h),
      if_neg (by rintro ⟨-, h⟩; exact h5 h), if_neg (by rintro ⟨-, h⟩; exact h4 h)]

/-- Witness for C2: an input that is exactly the OLE2 magic whose compound
file holds a /WordDocument stream detects as Doc. -/
theorem c2_detect_format_witness :
    Main.detect_format Main.OLE2_MAGIC (some ["/WordDocument"]) none = .ok .Doc :=
  c2_detect_format.1 Main.OLE2_MAGIC ["/WordDocument"] none (by decide) (by simp)

/-- C3: on the mega-line A-tab-B-tab-C-tab-tab-D-tab-E-tab-F-tab the
plain-to-markdown heuristic produces a six-column table (the line-level trim
removes the trailing tab, leaving a single empty cell, so the row-separator
detection fails and the fallback caps the column count at six), not the
three-column table with rows A B C and D E F that the specification
describes. -/
theorem c3_megaline_table :
    Heuristic.plain_to_markdown "A\tB\tC\t\tD\tE\tF\t\n" =
      "| A | B | C |  | D | E |\n| --- | --- | --- | --- | --- | --- |\n| F |  |  |  |  |  |\n\n" ∧
    ¬ Heuristic.plain_to_markdown "A\tB\tC\t\tD\tE\tF\t\n" =
      "| A | B | C |\n| --- | --- | --- |\n| D | E | F |\n| --- | --- | --- |\n\n" := by
  constructor
  · decide
  · decide

namespace Markup

theorem takeWhile_all_append {α} (p : α → Bool) (gs post : List α)
    (hall : ∀ x ∈ gs, p x = true)
    (hpost : ∀ h, post.head? = some h → p h = false) :
    (gs ++ post).takeWhile p = gs ∧ (gs ++ post).dropWhile p = post := by
  induction gs with
  | nil =>
    cases post with
    | nil => simp
    | cons h t =>
      have := hpost h rfl
      simp [List.takeWhile_cons, List.dropWhile_cons, this]
  | cons g gs ih =>
    have hg := hall g (by simp)
    have ih2 := ih fun x hx => hall x (by simp [hx])
    simp [List.takeWhile_cons, List.dropWhile_cons, hg, ih2.1, ih2.2]

theorem takeWhile_append_stop {α} (p : α → Bool) (ps z : List α)
    (h : ps.dropWhile p ≠ []) :
    (ps ++ z).takeWhile p = ps.takeWhile p ∧
      (ps ++ z).dropWhile p = ps.dropWhile p ++ z := by
  induction ps with
  | nil => simp at h
  | cons a t ih =>
    by_cases hp : p a = true
    · have hne : t.dropWhile p ≠ [] := by
        simpa [List.dropWhile_cons, hp] using h
      have := ih hne
      simp [List.takeWhile_cons, List.dropWhile_cons, hp, this.1, this.2]
    · have hp2 : p a = false := by simpa using hp
      simp [List.takeWhile_cons, List.dropWhile_cons, hp2]

theorem getLast?_dropWhile {α} (p : α → Bool) (l : List α)
    (h : l.dropWhile p ≠ []) : (l.dropWhile p).getLast? = l.getLast? := by
  induction l with
  | nil => simp at h
  | cons a t ih =>
    by_cases hp : p a = true
    · have hdw : (a :: t).dropWhile p = t.dropWhile p := by
        simp [List.dropWhile_cons, hp]
      rw [hdw] at h ⊢
      rw [ih h]
      have ht : t ≠ [] := by rintro rfl; simp [List.dropWhile] at h
      cases t with
      | nil => exact absurd rfl ht
      | cons b u => simp [List.getLast?_cons_cons]
    · have hp2 : p a = false := by simpa using hp
      simp [List.dropWhile_cons, hp2]

theorem length_dropWhile_le_self {α} (p : α → Bool) (l : List α) :
    (l.dropWhile p).length ≤ l.length := by
  induction l with
  | nil => simp
  | cons a t ih =>
    by_cases hp : p a = true
    · simp only [List.dropWhile_cons, hp, if_true, List.length_cons]
      omega
    · have hp2 : p a = false := by simpa using hp
      simp [List.dropWhile_cons, hp2]

theorem renderRunsAux_congr (f1 : ℕ) :
    ∀ (f2 : ℕ) (runs : List Run), runs.length < f1 → runs.length < f2 →
      renderRunsAux f1 runs = renderRunsAux f2 runs := by
  induction f1 with
  | zero => intro f2 runs h1 _; omega
  | succ f1 ih =>
    intro f2 runs h1 h2
    obtain ⟨g2, rfl⟩ : ∃ g2, f2 = g2 + 1 := ⟨f2 - 1, by omega⟩
    cases runs with
    | nil => rfl
    | cons r rs =>
      simp only [List.length_cons] at h1 h2
      cases hr : r.linkUrl with
      | some url =>
        simp only [renderRunsAux, hr]
        have hd := length_dropWhile_le_self (fun x => decide (x.linkUrl = some url)) rs
        rw [ih g2 _ (by omega) (by omega)]
      | none =>
        simp only [renderRunsAux, hr]
        rw [ih g2 rs (by omega) (by omega)]

theorem render_cons_none (r : Run) (rs : List Run) (h : r.linkUrl = none) :
    render_runs_markdown (r :: rs) =
      (if rustTrim r.text = "" then r.text else format_run_inline r) ++
        render_runs_markdown rs := by
  simp only [render_runs_markdown, List.length_cons, renderRunsAux, h]

theorem render_cons_some (r : Run) (rs : List Run) (url : String)
    (h : r.linkUrl = some url) :
    render_runs_markdown (r :: rs) =
      renderLinkGroup (r :: rs.takeWhile fun x => x.linkUrl = some url) url ++
        render_runs_markdown (rs.dropWhile fun x => x.linkUrl = some url) := by
  simp only [render_runs_markdown, List.length_cons, renderRunsAux, h]
  have hd := length_dropWhile_le_self (fun x => decide (x.linkUrl = some url)) rs
  exact congrArg _ (renderRunsAux_congr _ _ _ (by omega) (by omega))

end Markup

namespace Markup

theorem render_nil : render_runs_markdown [] = "" := rfl

theorem c5_base (group post : List Run) (url : String)
    (hne : group ≠ []) (hg : ∀ r ∈ group, r.linkUrl = some url)
    (hpost : ∀ h, post.head? = some h → ¬ h.linkUrl = some url) :
    render_runs_markdown (group ++ post) =
      renderLinkGroup group url ++ render_runs_markdown post := by
  obtain ⟨g, gs, rfl⟩ : ∃ g gs, group = g :: gs := by
    cases group with
    | nil => exact absurd rfl hne
    | cons g gs => exact ⟨g, gs, rfl⟩
  have hgl := hg g (by simp)
  rw [List.cons_append, render_cons_some g (gs ++ post) url hgl]
  have hta := takeWhile_all_append (fun x => decide (x.linkUrl = some url)) gs post
    (fun x hx => by simp [hg x (by simp [hx])])
    (fun h hh => by simp [hpost h hh])
  rw [hta.1, hta.2]

theorem c5_main : ∀ (n : ℕ) (pre group post : List Run) (url : String),
    pre.length ≤ n → group ≠ [] → (∀ r ∈ group, r.linkUrl = some url) →
    (∀ l, pre.getLast? = some l → ¬ l.linkUrl = some url) →
    (∀ h, post.head? = some h → ¬ h.linkUrl = some url) →
    render_runs_markdown (pre ++ group ++ post) =
      render_runs_markdown pre ++ renderLinkGroup group url ++
        render_runs_markdown post := by
  intro n
  induction n with
  | zero =>
    intro pre group post url hlen hne hg hpre hpost
    have hpre0 : pre = [] := List.length_eq_zero.mp (by omega)
    subst hpre0
    rw [List.nil_append, c5_base group post url hne hg hpost, render_nil]
    rfl
  | succ n ih =>
    intro pre group post url hlen hne hg hpre hpost
    cases pre with
    | nil =>
      rw [List.nil_append, c5_base group post url hne hg hpost, render_nil]
      rfl
    | cons p ps =>
      simp only [List.length_cons] at hlen
      simp only [List.cons_append, List.append_assoc] at *
      cases hp : p.linkUrl with
      | none =>
        rw [render_cons_none p _ hp, render_cons_none p ps hp]
        rw [ih ps group post url (by omega) hne hg ?_ hpost]
        · simp only [String.append_assoc]
        · intro l hl
          apply hpre
          cases ps with
          | nil => simp at hl
          | cons b u => rwa [List.getLast?_cons_cons]
      | some u =>
        rw [render_cons_some p _ u hp, render_cons_some p ps u hp]
        by_cases hstop : ps.dropWhile (fun x => decide (x.linkUrl = some u)) = []
        · have hall : ∀ x ∈ ps, (decide (x.linkUrl = some u)) = true := by
            intro x hx
            exact List.dropWhile_eq_nil_iff.mp hstop x hx
          obtain ⟨g, gs, rfl⟩ : ∃ g gs, group = g :: gs := by
            cases group with
            | nil => exact absurd rfl hne
            | cons g gs => exact ⟨g, gs, rfl⟩
          have hgl := hg g (by simp)
          have hneq : ¬ u = url := by
            intro hequ
            subst hequ
            cases hps : ps with
            | nil =>
              subst hps
              exact hpre p rfl hp
            | cons q qs =>
              obtain ⟨l, hl⟩ : ∃ l, ps.getLast? = some l := by
                rw [hps]; exact ⟨(q :: qs).getLast (by simp), List.getLast?_eq_getLast _ _⟩
              have hlmem : l ∈ ps := List.mem_of_mem_getLast? hl
              have : l.linkUrl = some u := by simpa using hall l hlmem
              apply hpre l ?_ this
              rw [hps] at hl ⊢
              rwa [List.getLast?_cons_cons]
          have hneq2 : url ≠ u := fun hh => hneq hh.symm
          simp only [List.cons_append]
          have hta := takeWhile_all_append (fun x => decide (x.linkUrl = some u)) ps
            (g :: (gs ++ post)) hall
            (fun h hh => by
              simp only [List.head?_cons, Option.some.injEq] at hh
              subst hh
              simp [hgl, hneq2])
          have hta0 := takeWhile_all_append (fun x => decide (x.linkUrl = some u)) ps [] hall
            (fun h hh => by simp at hh)
          rw [List.append_nil] at hta0
          rw [hta.1, hta.2, hta0.1, hta0.2]
          have hb := c5_base (g :: gs) post url (by simp) hg hpost
          rw [List.cons_append] at hb
          rw [hb, render_nil, String.append_empty, String.append_assoc]
        · have hta := takeWhile_append_stop (fun x => decide (x.linkUrl = some u)) ps
            (group ++ post) hstop
          rw [hta.1, hta.2]
          have hlast : (ps.dropWhile (fun x => decide (x.linkUrl = some u))).getLast? =
              ps.getLast? := getLast?_dropWhile _ ps hstop
          have hlend := length_dropWhile_le_self (fun x => decide (x.linkUrl = some u)) ps
          rw [ih (ps.dropWhile (fun x => decide (x.linkUrl = some u))) group post url
            (by omega) hne hg ?_ hpost]
          · simp only [String.append_assoc]
          · intro l hl
            apply hpre
            rw [hlast] at hl
            have hpsne : ps ≠ [] := by
              rintro rfl
              simp [List.dropWhile] at hstop
            cases ps with
            | nil => exact absurd rfl hpsne
            | cons b w => rwa [List.getLast?_cons_cons]

end Markup

/-- C5 (amended): for every run sequence, a maximal group of adjacent runs
sharing the same Some link URL contributes exactly one markdown link
wrapping the group's concatenated formatted text with the joined content
trimmed — unless that joined content trims to empty, in which case the group
contributes nothing; whitespace-only runs inside the group pass through
without bold or italic wrapping (see `Markup.groupLinkText`). -/
theorem c5_link_grouping (pre group post : List Markup.Run) (url : String)
    (hne : group ≠ []) (hg : ∀ r ∈ group, r.linkUrl = some url)
    (hpre : ∀ l, pre.getLast? = some l → ¬ l.linkUrl = some url)
    (hpost : ∀ h, post.head? = some h → ¬ h.linkUrl = some url) :
    Markup.render_runs_markdown (pre ++ group ++ post) =
      Markup.render_runs_markdown pre ++ Markup.renderLinkGroup group url ++
        Markup.render_runs_markdown post :=
  Markup.c5_main pre.length pre group post url le_rfl hne hg hpre hpost

/-- Witness for C5: a two-run link group rendered on its own. -/
theorem c5_link_grouping_witness :
    Markup.render_runs_markdown
        (([] : List Markup.Run) ++
          [⟨"click ", false, false, some "https://e.com"⟩,
            ⟨"here", true, false, some "https://e.com"⟩] ++ []) =
      Markup.render_runs_markdown [] ++
        Markup.renderLinkGroup
          [⟨"click ", false, false, some "https://e.com"⟩,
            ⟨"here", true, false, some "https://e.com"⟩] "https://e.com" ++
        Markup.render_runs_markdown [] :=
  c5_link_grouping []
    [⟨"click ", false, false, some "https://e.com"⟩,
      ⟨"here", true, false, some "https://e.com"⟩] [] "https://e.com"
    (by decide) (by decide) (fun l hl => by simp at hl) (fun h hh => by simp at hh)

/-- Counterexample for C5 as stated: a maximal link group consisting of one
whitespace-only run produces no link at all — the output is empty, not the
single link (with trimmed, here empty, content) that the claim promises for
every maximal group. -/
theorem c5_whitespace_group_counterexample :
    Markup.render_runs_markdown [⟨" ", false, false, some "u"⟩] = "" ∧
    ¬ ("" : String) = "[](u)" := ⟨by decide, by decide⟩

/-- C4: evaluating the per-sheet record loop at the failing sequence
FORMULA (string result, cell (0,0)), NUMBER (cell (1,1)), STRING "X": the
intervening NUMBER record is dispatched to its handler, which does not
clear the pending string cell, so the STRING record still produces the
cell (0,0) = "X" even though it is not the immediate successor of the
FORMULA — the record loop does not clear pending state on handled record
types, contrary to the claim and to the comment in its own default arm. -/
theorem c4_pending_survives_number_record :
    (Xls.runSheetRecords (fun _ _ => Char.ofNat 0xFFFD) [] [] 1252
      [(Xls.REC_FORMULA,
        [0, 0, 0, 0, 0, 0, 0, 0, 0, 0, 0, 0, 0xFF, 0xFF, 0, 0, 0, 0, 0, 0]),
       (Xls.REC_NUMBER, [1, 0, 1, 0, 0, 0, 0, 0, 0, 0, 0, 0, 0, 0]),
       (Xls.REC_STRING, [1, 0, 1, 88, 0])]
      (⟨[], 0, 0⟩, none)).1.cells =
      [⟨1, 1, "0"⟩, ⟨0, 0, "X"⟩] := by decide

namespace Xls

theorem mem_set_cases {α} (l : List α) (n : ℕ) (a x : α) (h : x ∈ l.set n a) :
    x ∈ l ∨ x = a := by
  induction l generalizing n with
  | nil => simp at h
  | cons b t ih =>
    cases n with
    | zero =>
      simp only [List.set, List.mem_cons] at h
      rcases h with h | h
      · exact Or.inr h
      · exact Or.inl (List.mem_cons_of_mem _ h)
    | succ n =>
      simp only [List.set, List.mem_cons] at h
      rcases h with h | h
      · exact Or.inl (by simp [h])
      · rcases ih n h with h2 | h2
        · exact Or.inl (List.mem_cons_of_mem _ h2)
        · exact Or.inr h2

theorem set2d_length (g : List (List String)) (r c : ℕ) (v : String) :
    (set2d g r c v).length = g.length := by
  simp [set2d]

theorem headD_drop_mem (g : List (List String)) (r : ℕ) (hr : r < g.length) :
    (g.drop r).headD [] ∈ g := by
  have hlt : 0 < (g.drop r).length := by
    rw [List.length_drop]; omega
  cases hd : g.drop r with
  | nil => rw [hd] at hlt; simp at hlt
  | cons x t =>
    simp only [List.headD_cons]
    have hx : x ∈ g.drop r := by rw [hd]; simp
    exact List.mem_of_mem_drop hx

theorem set2d_rows (g : List (List String)) (r c : ℕ) (v : String) (mc : ℕ)
    (h : ∀ row ∈ g, row.length = mc) :
    ∀ row ∈ set2d g r c v, row.length = mc := by
  by_cases hr : r < g.length
  · intro row hrow
    rcases mem_set_cases _ _ _ _ hrow with h2 | h2
    · exact h row h2
    · subst h2
      rw [List.length_set]
      exact h _ (headD_drop_mem g r hr)
  · rw [set2d, List.set_eq_of_length_le (by omega)]
    exact h

end Xls

namespace Xls

theorem headD_drop_eq_getD {α} (l : List α) (n : ℕ) (d : α) :
    (l.drop n).headD d = (l.get? n).getD d := by
  induction l generalizing n with
  | nil => simp
  | cons x t ih => cases n <;> simp [ih]

theorem gridAt_replicate (mr mc r c : ℕ) :
    gridAt (List.replicate mr (List.replicate mc "")) r c = "" := by
  rw [gridAt, headD_drop_eq_getD]
  rcases Nat.lt_or_ge r mr with h | h
  · rw [show (List.replicate mr (List.replicate mc "")).get? r =
        some (List.replicate mc "") from by simp [h]]
    simp only [Option.getD_some]
    rcases Nat.lt_or_ge c mc with h2 | h2
    · simp [List.getD, h2]
    · rw [List.getD, List.get?_eq_none.mpr (by simp; omega)]
      rfl
  · rw [show (List.replicate mr (List.replicate mc "")).get? r = none from by
      simp; omega]
    rfl

theorem gridAt_set2d_ne (g : List (List String)) (r1 c1 r c : ℕ) (v : String)
    (h : ¬ (r1 = r ∧ c1 = c)) :
    gridAt (set2d g r1 c1 v) r c = gridAt g r c := by
  simp only [gridAt, set2d, headD_drop_eq_getD]
  by_cases hr : r1 = r
  · subst hr
    have hc : c1 ≠ c := by tauto
    by_cases hlen : r1 < g.length
    · rw [List.get?_set_eq_of_lt _ hlen]
      simp only [Option.getD_some]
      rw [List.getD, List.getD, List.get?_set_ne _ _ hc]
    · rw [List.set_eq_of_length_le (by omega)]
  · rw [List.get?_set_ne _ _ hr]

theorem cells_to_grid_foldl_shape (mr mc : ℕ) (cells : List Cell) :
    ∀ g : List (List String), g.length = mr → (∀ row ∈ g, row.length = mc) →
      (cells.foldl
        (fun g cell =>
          if cell.row < mr ∧ cell.col < mc then set2d g cell.row cell.col cell.value
          else g) g).length = mr ∧
      ∀ row ∈ cells.foldl
        (fun g cell =>
          if cell.row < mr ∧ cell.col < mc then set2d g cell.row cell.col cell.value
          else g) g, row.length = mc := by
  induction cells with
  | nil => intro g h1 h2; exact ⟨h1, h2⟩
  | cons cell rest ih =>
    intro g h1 h2
    simp only [List.foldl_cons]
    apply ih
    · split
      · rw [set2d_length]; exact h1
      · exact h1
    · split
      · exact set2d_rows g _ _ _ mc h2
      · exact h2

theorem cells_to_grid_foldl_unset (mr mc r c : ℕ) (cells : List Cell)
    (hc : ∀ p ∈ cells, ¬ (p.row = r ∧ p.col = c)) :
    ∀ g : List (List String), gridAt g r c = "" →
      gridAt (cells.foldl
        (fun g cell =>
          if cell.row < mr ∧ cell.col < mc then set2d g cell.row cell.col cell.value
          else g) g) r c = "" := by
  induction cells with
  | nil => intro g h; exact h
  | cons cell rest ih =>
    intro g h
    simp only [List.foldl_cons]
    apply ih (fun p hp => hc p (by simp [hp]))
    split
    · rw [gridAt_set2d_ne _ _ _ _ _ _ (hc cell (by simp))]
      exact h
    · exact h

theorem buildCells_bound (pushes : List (ℕ × ℕ × String)) :
    ∀ g : GridBuilder,
      (∀ p ∈ pushes,
        p.1 + 1 ≤ (pushes.foldl (fun g p => g.push p.1 p.2.1 p.2.2) g).maxRow ∧
        p.2.1 + 1 ≤ (pushes.foldl (fun g p => g.push p.1 p.2.1 p.2.2) g).maxCol) ∧
      g.maxRow ≤ (pushes.foldl (fun g p => g.push p.1 p.2.1 p.2.2) g).maxRow ∧
      g.maxCol ≤ (pushes.foldl (fun g p => g.push p.1 p.2.1 p.2.2) g).maxCol := by
  induction pushes with
  | nil => intro g; exact ⟨by simp, le_rfl, le_rfl⟩
  | cons p ps ih =>
    intro g
    simp only [List.foldl_cons]
    obtain ⟨ihall, ihr, ihc⟩ := ih (g.push p.1 p.2.1 p.2.2)
    have hpr : p.1 + 1 ≤ (g.push p.1 p.2.1 p.2.2).maxRow := by
      simp only [GridBuilder.push]
      split <;> omega
    have hpc : p.2.1 + 1 ≤ (g.push p.1 p.2.1 p.2.2).maxCol := by
      simp only [GridBuilder.push]
      split <;> omega
    have hgr : g.maxRow ≤ (g.push p.1 p.2.1 p.2.2).maxRow := by
      simp only [GridBuilder.push]
      split <;> omega
    have hgc : g.maxCol ≤ (g.push p.1 p.2.1 p.2.2).maxCol := by
      simp only [GridBuilder.push]
      split <;> omega
    refine ⟨?_, le_trans hgr ihr, le_trans hgc ihc⟩
    intro q hq
    rcases List.mem_cons.mp hq with h | h
    · subst h
      exact ⟨le_trans hpr ihr, le_trans hpc ihc⟩
    · exact ihall q h

theorem buildCells_achieved (pushes : List (ℕ × ℕ × String)) :
    ∀ g : GridBuilder,
      ((pushes.foldl (fun g p => g.push p.1 p.2.1 p.2.2) g).maxRow = g.maxRow ∨
        ∃ p ∈ pushes,
          (pushes.foldl (fun g p => g.push p.1 p.2.1 p.2.2) g).maxRow = p.1 + 1) ∧
      ((pushes.foldl (fun g p => g.push p.1 p.2.1 p.2.2) g).maxCol = g.maxCol ∨
        ∃ p ∈ pushes,
          (pushes.foldl (fun g p => g.push p.1 p.2.1 p.2.2) g).maxCol = p.2.1 + 1) := by
  induction pushes with
  | nil => intro g; exact ⟨Or.inl rfl, Or.inl rfl⟩
  | cons p ps ih =>
    intro g
    simp only [List.foldl_cons]
    obtain ⟨ihr, ihc⟩ := ih (g.push p.1 p.2.1 p.2.2)
    constructor
    · rcases ihr with h | ⟨q, hq, hh⟩
      · rw [h]
        simp only [GridBuilder.push]
        split
        · exact Or.inr ⟨p, by simp, rfl⟩
        · exact Or.inl rfl
      · exact Or.inr ⟨q, by simp [hq], hh⟩
    · rcases ihc with h | ⟨q, hq, hh⟩
      · rw [h]
        simp only [GridBuilder.push]
        split
        · exact Or.inr ⟨p, by simp, rfl⟩
        · exact Or.inl rfl
      · exact Or.inr ⟨q, by simp [hq], hh⟩

theorem buildCells_cells (pushes : List (ℕ × ℕ × String)) :
    ∀ g : GridBuilder,
      (pushes.foldl (fun g p => g.push p.1 p.2.1 p.2.2) g).cells =
        g.cells ++ pushes.map fun p => ⟨p.1, p.2.1, p.2.2⟩ := by
  induction pushes with
  | nil => intro g; simp
  | cons p ps ih =>
    intro g
    simp only [List.foldl_cons, List.map_cons]
    rw [ih]
    simp [GridBuilder.push]

end Xls

/-- C8: the grid built from any sequence of cell pushes (as the sheet record
loop performs them) is a dense rectangle: `max_row` and `max_col` bound every
pushed index by at least one (so the grid spans max index + 1) and are achieved
by some push when any push happened; if `max_row * max_col` exceeds 1,000,000
the grid is empty; otherwise the grid has exactly `max_row` rows, every row has
exactly `max_col` cells, and every position no push targeted holds `""`. -/
theorem c8_dense_grid (pushes : List (ℕ × ℕ × String)) :
    (∀ p ∈ pushes,
      p.1 + 1 ≤ (Xls.buildCells pushes).maxRow ∧
      p.2.1 + 1 ≤ (Xls.buildCells pushes).maxCol) ∧
    (pushes ≠ [] →
      (∃ p ∈ pushes, (Xls.buildCells pushes).maxRow = p.1 + 1) ∧
      (∃ p ∈ pushes, (Xls.buildCells pushes).maxCol = p.2.1 + 1)) ∧
    ((Xls.buildCells pushes).maxRow * (Xls.buildCells pushes).maxCol >
        Xls.MAX_GRID_CELLS →
      (Xls.buildCells pushes).intoGrid = []) ∧
    ((Xls.buildCells pushes).maxRow * (Xls.buildCells pushes).maxCol ≤
        Xls.MAX_GRID_CELLS →
      (Xls.buildCells pushes).intoGrid.length = (Xls.buildCells pushes).maxRow ∧
      (∀ row ∈ (Xls.buildCells pushes).intoGrid,
        row.length = (Xls.buildCells pushes).maxCol) ∧
      ∀ r c, (∀ p ∈ pushes, ¬ (p.1 = r ∧ p.2.1 = c)) →
        Xls.gridAt (Xls.buildCells pushes).intoGrid r c = "") := by
  obtain ⟨hball, -, -⟩ := Xls.buildCells_bound pushes ⟨[], 0, 0⟩
  refine ⟨hball, ?_, ?_, ?_⟩
  · intro hne
    obtain ⟨hr, hc⟩ := Xls.buildCells_achieved pushes ⟨[], 0, 0⟩
    cases pushes with
    | nil => exact absurd rfl hne
    | cons p ps =>
      refine ⟨?_, ?_⟩
      · rcases hr with h | h
        · exfalso
          have hb := (hball p (by simp)).1
          rw [show (Xls.GridBuilder.mk [] 0 0).maxRow = 0 from rfl] at h
          omega
        · exact h
      · rcases hc with h | h
        · exfalso
          have hb := (hball p (by simp)).2
          rw [show (Xls.GridBuilder.mk [] 0 0).maxCol = 0 from rfl] at h
          omega
        · exact h
  · intro hcap
    rw [Xls.GridBuilder.intoGrid, Xls.cells_to_grid, if_pos hcap]
  · intro hcap
    have hnot : ¬ (Xls.buildCells pushes).maxRow * (Xls.buildCells pushes).maxCol >
        Xls.MAX_GRID_CELLS := by omega
    rw [Xls.GridBuilder.intoGrid, Xls.cells_to_grid, if_neg hnot]
    obtain ⟨hlen, hrows⟩ := Xls.cells_to_grid_foldl_shape
      (Xls.buildCells pushes).maxRow (Xls.buildCells pushes).maxCol
      (Xls.buildCells pushes).cells
      (List.replicate (Xls.buildCells pushes).maxRow
        (List.replicate (Xls.buildCells pushes).maxCol ""))
      (by simp)
      (by intro row hrow; rw [List.eq_of_mem_replicate hrow]; simp)
    refine ⟨hlen, hrows, ?_⟩
    intro r c hrc
    have hcells : (Xls.buildCells pushes).cells =
        pushes.map fun p => (⟨p.1, p.2.1, p.2.2⟩ : Xls.Cell) := by
      rw [Xls.buildCells, Xls.buildCells_cells pushes ⟨[], 0, 0⟩]
      simp
    apply Xls.cells_to_grid_foldl_unset
    · intro cell hcell
      rw [hcells] at hcell
      simp only [List.mem_map] at hcell
      obtain ⟨p, hp, hpc⟩ := hcell
      subst hpc
      exact hrc p hp
    · exact Xls.gridAt_replicate _ _ _ _

/-- Witness for C8 at the pushes (0,1,"A"), (2,0,"B"): the cap hypothesis and
the unset-position premise are discharged concretely. -/
theorem c8_dense_grid_witness :
    (Xls.buildCells [(0, 1, "A"), (2, 0, "B")]).intoGrid.length =
      (Xls.buildCells [(0, 1, "A"), (2, 0, "B")]).maxRow ∧
    (∀ row ∈ (Xls.buildCells [(0, 1, "A"), (2, 0, "B")]).intoGrid,
      row.length = (Xls.buildCells [(0, 1, "A"), (2, 0, "B")]).maxCol) ∧
    Xls.gridAt (Xls.buildCells [(0, 1, "A"), (2, 0, "B")]).intoGrid 1 1 = "" := by
  obtain ⟨-, -, -, h4⟩ := c8_dense_grid [(0, 1, "A"), (2, 0, "B")]
  obtain ⟨h1, h2, h3⟩ := h4 (by decide)
  exact ⟨h1, h2, h3 1 1 (by decide)⟩

namespace Xls

theorem hasFBE_cons_skip (rt : ℕ) (d : List ℕ) (rest : List (ℕ × List ℕ))
    (h1 : ¬ rt = REC_FILEPASS) (h2 : ¬ rt = REC_EOF) :
    hasFilepassBeforeEof ((rt, d) :: rest) = hasFilepassBeforeEof rest := by
  simp only [hasFilepassBeforeEof, if_neg h1, if_neg h2]

theorem hasFBE_cons_eof (rt : ℕ) (d : List ℕ) (rest : List (ℕ × List ℕ))
    (h1 : ¬ rt = REC_FILEPASS) (h2 : rt = REC_EOF) :
    hasFilepassBeforeEof ((rt, d) :: rest) = false := by
  simp only [hasFilepassBeforeEof, if_neg h1, if_pos h2]

theorem hasFBE_dropWhile_continue (l : List (ℕ × List ℕ)) :
    hasFilepassBeforeEof (l.dropWhile fun r => r.1 = REC_CONTINUE) =
      hasFilepassBeforeEof l := by
  induction l with
  | nil => rfl
  | cons r rest ih =>
    obtain ⟨rt, d⟩ := r
    rw [List.dropWhile_cons]
    by_cases h : rt = REC_CONTINUE
    · rw [if_pos (by simpa using h), ih,
        hasFBE_cons_skip rt d rest (by rw [h]; decide) (by rw [h]; decide)]
    · rw [if_neg (by simpa using h)]

theorem parseGlobalsLoop_encrypted (dh : ℕ → ℕ → Char) :
    ∀ (fuel : ℕ) (records : List (ℕ × List ℕ)) (g : GState),
      records.length < fuel →
      (parseGlobalsLoop dh fuel records g = .error "document is encrypted" ↔
        hasFilepassBeforeEof records = true) := by
  intro fuel
  induction fuel with
  | zero => intro records g h; omega
  | succ fuel ih =>
    intro records g h
    cases records with
    | nil => simp [parseGlobalsLoop, hasFilepassBeforeEof]
    | cons r rest =>
      obtain ⟨rt, d⟩ := r
      have hrest : rest.length < fuel := by
        simp only [List.length_cons] at h; omega
      simp only [parseGlobalsLoop]
      by_cases h1 : rt = REC_FILEPASS
      · rw [if_pos h1]
        simp only [hasFilepassBeforeEof, if_pos h1]
      · rw [if_neg h1]
        by_cases h2 : rt = REC_CODEPAGE
        · rw [if_pos h2, hasFBE_cons_skip rt d rest h1 (by rw [h2]; decide)]
          exact ih rest _ hrest
        · rw [if_neg h2]
          by_cases h3 : rt = REC_FORMAT
          · rw [if_pos h3, hasFBE_cons_skip rt d rest h1 (by rw [h3]; decide)]
            exact ih rest _ hrest
          · rw [if_neg h3]
            by_cases h4 : rt = REC_XF
            · rw [if_pos h4, hasFBE_cons_skip rt d rest h1 (by rw [h4]; decide)]
              exact ih rest _ hrest
            · rw [if_neg h4]
              by_cases h5 : rt = REC_SST
              · rw [if_pos h5, hasFBE_cons_skip rt d rest h1 (by rw [h5]; decide),
                  ← hasFBE_dropWhile_continue rest]
                exact ih (rest.dropWhile fun r => r.1 = REC_CONTINUE) _
                  (lt_of_le_of_lt (Markup.length_dropWhile_le_self _ _) hrest)
              · rw [if_neg h5]
                by_cases h6 : rt = REC_BOUNDSHEET
                · rw [if_pos h6, hasFBE_cons_skip rt d rest h1 (by rw [h6]; decide)]
                  exact ih rest _ hrest
                · rw [if_neg h6]
                  by_cases h7 : rt = REC_EOF
                  · rw [if_pos h7, hasFBE_cons_eof rt d rest h1 h7]
                    constructor
                    · intro hh; simp at hh
                    · intro hh; simp at hh
                  · rw [if_neg h7, hasFBE_cons_skip rt d rest h1 h7]
                    exact ih rest g hrest

theorem parse_globals_encrypted (dh : ℕ → ℕ → Char)
    (records : List (ℕ × List ℕ)) :
    parse_globals dh records = .error "document is encrypted" ↔
      hasFilepassBeforeEof records = true := by
  rw [parse_globals, ← parseGlobalsLoop_encrypted dh (records.length + 1) records
    ⟨[], [], [], [], 1252⟩ (by omega)]
  cases parseGlobalsLoop dh (records.length + 1) records ⟨[], [], [], [], 1252⟩ with
  | error e => simp [Except.map]
  | ok g => simp [Except.map]

theorem parse_xls_encrypted (dh : ℕ → ℕ → Char) (buf : List ℕ) :
    parse_xls dh buf = .error "document is encrypted" ↔
      parse_globals dh (parse_records buf) = .error "document is encrypted" := by
  rw [parse_xls]
  cases hg : parse_globals dh (parse_records buf) with
  | error e => simp
  | ok v =>
    obtain ⟨sst, sheetEntries, xfStyles, cp⟩ := v
    simp

theorem extract_plain_encrypted (dh : ℕ → ℕ → Char) (buf : List ℕ) :
    extract_plain dh buf = .error "document is encrypted" ↔
      parse_xls dh buf = .error "document is encrypted" := by
  rw [extract_plain]
  cases parse_xls dh buf with
  | error e => simp [Except.map]
  | ok v => simp [Except.map]

end Xls

/-- C7: extraction fails with the error "document is encrypted" exactly when
encryption is detected. For a .doc WordDocument stream of at least 32 bytes,
that is exactly when bit 0x0100 of the FIB flags word (bytes 10-11,
little-endian) is set; for a .xls Workbook stream, exactly when a FILEPASS
(0x002F) record occurs among the parsed records before the first EOF, and
in that case the error already arises in `parse_globals`, before any sheet
substream (hence any cell) is parsed. -/
theorem c7_encryption_detection :
    (∀ (dh : ℕ → ℕ → Char) (buf : List ℕ), 32 ≤ buf.length →
      (Doc.extract_plain dh buf = .error "document is encrypted" ↔
        le16 (buf.getD 10 0) (buf.getD 11 0) &&& 0x0100 ≠ 0)) ∧
    (∀ (dh : ℕ → ℕ → Char) (buf : List ℕ),
      (Xls.extract_plain dh buf = .error "document is encrypted" ↔
        Xls.hasFilepassBeforeEof (Xls.parse_records buf) = true) ∧
      (Xls.extract_plain dh buf = .error "document is encrypted" ↔
        Xls.parse_globals dh (Xls.parse_records buf) =
          .error "document is encrypted")) := by
  constructor
  · intro dh buf hlen
    rw [Doc.extract_plain, if_neg (by omega)]
    by_cases hflag : le16 (buf.getD 10 0) (buf.getD 11 0) &&& 0x0100 ≠ 0
    · rw [if_pos hflag]
      exact ⟨fun _ => hflag, fun _ => rfl⟩
    · rw [if_neg hflag]
      constructor
      · intro hh
        exfalso
        simp only [ge_iff_le] at hh
        split at hh
        · rw [Except.error.injEq] at hh
          exact absurd hh (by decide)
        · exact absurd hh (by simp)
      · intro hh
        exact absurd hh hflag
  · intro dh buf
    have hx := Xls.extract_plain_encrypted dh buf
    have hp := Xls.parse_xls_encrypted dh buf
    have hg := Xls.parse_globals_encrypted dh (Xls.parse_records buf)
    exact ⟨hx.trans (hp.trans hg), hx.trans hp⟩

/-- Witness for C7: a 32-byte WordDocument stream with flags bit 0x0100 set
fails with the encryption error, and a Workbook stream BOF, FILEPASS, EOF
fails with the encryption error. -/
theorem c7_encryption_detection_witness :
    Doc.extract_plain (fun _ _ => 'x')
      (List.replicate 11 0 ++ 0x01 :: List.replicate 20 0) =
      .error "document is encrypted" ∧
    Xls.extract_plain (fun _ _ => 'x')
      [0x09, 0x08, 0, 0, 0x2F, 0, 0, 0, 0x0A, 0, 0, 0] =
      .error "document is encrypted" := by
  constructor
  · exact (c7_encryption_detection.1 (fun _ _ => 'x')
      (List.replicate 11 0 ++ 0x01 :: List.replicate 20 0) (by decide)).mpr
      (by decide)
  · exact ((c7_encryption_detection.2 (fun _ _ => 'x')
      [0x09, 0x08, 0, 0, 0x2F, 0, 0, 0, 0x0A, 0, 0, 0]).1).mpr (by decide)

namespace Doc

theorem bufCharOk_charOk (c : Char) (h : bufCharOk c) : charOk c := by
  rcases h with h | h
  · exact Or.inl h
  · exact Or.inr (Or.inr h)

theorem bufOk_nil : bufOk "" := fun _ hc => nomatch hc

theorem bufOk_append (s t : String) (hs : bufOk s) (ht : bufOk t) :
    bufOk (s ++ t) := by
  intro c hc
  rw [String.data_append] at hc
  rcases List.mem_append.mp hc with h | h
  · exact hs c h
  · exact ht c h

theorem bufOk_single (ch : Char) (h : bufCharOk ch) : bufOk ch.toString := by
  intro c hc
  rcases List.mem_singleton.mp hc with rfl
  exact h

theorem outOk_of_bufOk (s : String) (h : bufOk s) : outOk s :=
  fun c hc => bufCharOk_charOk c (h c hc)

theorem bufOk_of_all_ge (s : String) (h : ∀ c ∈ s.data, 0x20 ≤ c.toNat) :
    bufOk s :=
  fun c hc => Or.inr (h c hc)

theorem outOk_append (s t : String) (hs : outOk s) (ht : outOk t) :
    outOk (s ++ t) := by
  intro c hc
  rw [String.data_append] at hc
  rcases List.mem_append.mp hc with h | h
  · exact hs c h
  · exact ht c h

theorem outOk_newline : outOk "\n" := by
  intro c hc
  rcases List.mem_singleton.mp hc with rfl
  exact Or.inr (Or.inl rfl)

theorem rustTrimStartList_sublist (l : List Char) :
    List.Sublist (rustTrimStartList l) l :=
  List.dropWhile_sublist _

theorem rustTrimEndList_sublist (l : List Char) :
    List.Sublist (rustTrimEndList l) l := by
  rw [rustTrimEndList]
  have h := (List.dropWhile_sublist (l := l.reverse) rustIsWhitespace).reverse
  rwa [List.reverse_reverse] at h

theorem rustTrimList_sublist (l : List Char) :
    List.Sublist (rustTrimList l) l :=
  (rustTrimEndList_sublist _).trans (rustTrimStartList_sublist l)

theorem bufOk_rustTrimEnd (s : String) (h : bufOk s) : bufOk (rustTrimEnd s) :=
  fun c hc => h c ((rustTrimEndList_sublist s.data).mem hc)

theorem bufOk_rustTrim (s : String) (h : bufOk s) : bufOk (rustTrim s) :=
  fun c hc => h c ((rustTrimList_sublist s.data).mem hc)

theorem charFromU32_toNat (n : ℕ) (ch : Char) (h : charFromU32 n = some ch) :
    ch.toNat = n := by
  rw [charFromU32] at h
  split at h
  · next hv =>
    cases h
    unfold Char.ofNat
    split
    · rfl
    · next hbad => exact absurd hv hbad
  · cases h

theorem flushParagraph_ok (paragraph output : String) (first : Bool)
    (hp : bufOk paragraph) (ho : outOk output) :
    bufOk (flushParagraph paragraph output first).1 ∧
    outOk (flushParagraph paragraph output first).2.1 := by
  simp only [flushParagraph]
  split
  · refine ⟨bufOk_nil, ?_⟩
    apply outOk_append
    · apply outOk_append
      · split
        · exact outOk_append _ _ ho outOk_newline
        · exact ho
      · exact outOk_of_bufOk _ (bufOk_rustTrimEnd _ hp)
    · exact outOk_newline
  · exact ⟨bufOk_nil, ho⟩

theorem pushChar_ok (ch : Char) (stack : List FieldState) (paragraph : String)
    (hch : bufCharOk ch) (hp : bufOk paragraph) (hs : ∀ f ∈ stack, fsOk f) :
    (∀ f ∈ (pushCharToFieldOrPara ch stack paragraph).1, fsOk f) ∧
    bufOk (pushCharToFieldOrPara ch stack paragraph).2 := by
  cases stack with
  | nil =>
    exact ⟨fun f hf => (nomatch hf),
      bufOk_append _ _ hp (bufOk_single ch hch)⟩
  | cons f rest =>
    cases f with
    | instruction buf =>
      refine ⟨?_, hp⟩
      intro f hf
      rcases List.mem_cons.mp hf with rfl | hf2
      · exact bufOk_append _ _ (hs (.instruction buf) (by simp)) (bufOk_single ch hch)
      · exact hs f (List.mem_cons_of_mem _ hf2)
    | display url text =>
      refine ⟨?_, hp⟩
      intro f hf
      rcases List.mem_cons.mp hf with rfl | hf2
      · have hd := hs (.display url text) (by simp)
        exact ⟨bufOk_append _ _ hd.1 (bufOk_single ch hch), hd.2⟩
      · exact hs f (List.mem_cons_of_mem _ hf2)

theorem emitFieldEnd_ok (stack : List FieldState) (paragraph : String)
    (hp : bufOk paragraph) (hs : ∀ f ∈ stack, fsOk f) :
    (∀ f ∈ (emitFieldEnd stack paragraph).1, fsOk f) ∧
    bufOk (emitFieldEnd stack paragraph).2 := by
  cases stack with
  | nil => exact ⟨fun f hf => (nomatch hf), hp⟩
  | cons f rest =>
    cases f with
    | instruction buf =>
      exact ⟨fun f hf => hs f (List.mem_cons_of_mem _ hf), hp⟩
    | display url text =>
      have hd := hs (.display url text) (by simp)
      cases url with
      | none =>
        exact ⟨fun f hf => hs f (List.mem_cons_of_mem _ hf),
          bufOk_append _ _ hp hd.1⟩
      | some u =>
        refine ⟨fun f hf => hs f (List.mem_cons_of_mem _ hf), ?_⟩
        apply bufOk_append
        · apply bufOk_append
          · apply bufOk_append
            · apply bufOk_append
              · apply bufOk_append
                · exact hp
                · exact bufOk_of_all_ge _ (by decide)
              · exact bufOk_rustTrim _ hd.1
            · exact bufOk_of_all_ge _ (by decide)
          · exact hd.2 u rfl
        · exact bufOk_of_all_ge _ (by decide)

end Doc

namespace Doc

theorem extract_hyperlink_url_mem (instruction : String) (u : String)
    (h : extract_hyperlink_url instruction = some u) :
    ∀ c ∈ u.data, c ∈ instruction.data := by
  have htr : List.Sublist (rustTrimList instruction.data) instruction.data :=
    rustTrimList_sublist _
  simp only [extract_hyperlink_url] at h
  split at h
  · exact absurd h (by simp)
  · next rest heq =>
    have hrest : List.Sublist rest instruction.data := by
      split at heq
      · cases heq; exact (List.drop_sublist _ _).trans htr
      · split at heq
        · cases heq; exact (List.drop_sublist _ _).trans htr
        · split at heq
          · cases heq; exact (List.drop_sublist _ _).trans htr
          · cases heq
    split at h
    · exact absurd h (by simp)
    · split at h
      · split at h
        · exact absurd h (by simp)
        · cases h
          intro c hc
          exact ((List.takeWhile_sublist _).trans
            ((List.drop_sublist _ _).trans
              ((List.dropWhile_sublist _).trans hrest))).mem hc
      · split at h
        · exact absurd h (by simp)
        · cases h
          intro c hc
          exact ((List.takeWhile_sublist _).trans
            ((List.dropWhile_sublist _).trans hrest)).mem hc

end Doc

namespace Doc

theorem docMatch_ok (st : DocState) (c : ℕ) (h : stOk st) : stOk (docMatch st c) := by
  obtain ⟨ho, hp, hs⟩ := h
  rw [docMatch]
  by_cases h1 : 0xD800 ≤ c ∧ c ≤ 0xDBFF
  · rw [if_pos h1]
    exact ⟨ho, hp, hs⟩
  · rw [if_neg h1]
    by_cases h2 : c = 0x0013
    · rw [if_pos h2]
      refine ⟨ho, hp, ?_⟩
      intro f hf
      rcases List.mem_cons.mp hf with rfl | hf2
      · exact fun c hc => (nomatch hc)
      · exact hs f hf2
    · rw [if_neg h2]
      by_cases h3 : c = 0x0014
      · rw [if_pos h3]
        cases hstk : st.fieldStack with
        | nil => exact ⟨ho, hp, hs⟩
        | cons s rest =>
          rw [hstk] at hs
          dsimp only
          cases s with
          | instruction instr =>
            refine ⟨ho, hp, ?_⟩
            intro f hf
            rcases List.mem_cons.mp hf with rfl | hf2
            · refine ⟨fun c hc => (nomatch hc), ?_⟩
              intro u hu
              have hbuf : bufOk instr := hs (.instruction instr) (by simp)
              intro ch hch
              exact hbuf ch (extract_hyperlink_url_mem instr u hu ch hch)
            · exact hs f (List.mem_cons_of_mem _ hf2)
          | display u2 t2 =>
            refine ⟨ho, hp, ?_⟩
            intro f hf
            rcases List.mem_cons.mp hf with rfl | hf2
            · exact ⟨fun c hc => (nomatch hc), fun u hu => nomatch hu⟩
            · exact hs f (List.mem_cons_of_mem _ hf2)
      · rw [if_neg h3]
        by_cases h4 : c = 0x0015
        · rw [if_pos h4]
          rcases hfe : emitFieldEnd st.fieldStack st.paragraph with ⟨fs, para⟩
          have he := emitFieldEnd_ok st.fieldStack st.paragraph hp hs
          rw [hfe] at he
          exact ⟨ho, he.2, he.1⟩
        · rw [if_neg h4]
          by_cases h5 : st.fieldDepth > 0
          · rw [if_pos h5]
            by_cases h6 : c = 0x000D ∨ c = 0x000B
            · rw [if_pos h6]
              cases hstk : st.fieldStack with
              | nil => exact ⟨ho, hp, fun f hf => (nomatch hf)⟩
              | cons s rest =>
                rw [hstk] at hs
                cases s with
                | instruction buf =>
                  refine ⟨ho, hp, ?_⟩
                  intro f hf
                  rcases List.mem_cons.mp hf with rfl | hf2
                  · exact fun c hc => (nomatch hc)
                  · exact hs f (List.mem_cons_of_mem _ hf2)
                | display url text =>
                  refine ⟨ho, hp, ?_⟩
                  intro f hf
                  rcases List.mem_cons.mp hf with rfl | hf2
                  · exact ⟨fun c hc => (nomatch hc),
                      (hs (.display url text) (by simp)).2⟩
                  · exact hs f (List.mem_cons_of_mem _ hf2)
            · rw [if_neg h6]
              cases hcu : charFromU32 c with
              | none => exact ⟨ho, hp, hs⟩
              | some ch =>
                dsimp only
                by_cases hge : (' ' : Char) ≤ ch
                · rw [if_pos hge]
                  have hch : bufCharOk ch := Or.inr hge
                  cases hstk : st.fieldStack with
                  | nil => exact ⟨ho, hp, hs⟩
                  | cons s rest =>
                    rw [hstk] at hs
                    cases s with
                    | instruction buf =>
                      refine ⟨ho, hp, ?_⟩
                      intro f hf
                      rcases List.mem_cons.mp hf with rfl | hf2
                      · exact bufOk_append _ _ (hs (.instruction buf) (by simp))
                          (bufOk_single ch hch)
                      · exact hs f (List.mem_cons_of_mem _ hf2)
                    | display url text =>
                      refine ⟨ho, hp, ?_⟩
                      intro f hf
                      rcases List.mem_cons.mp hf with rfl | hf2
                      · have hd := hs (.display url text) (by simp)
                        exact ⟨bufOk_append _ _ hd.1 (bufOk_single ch hch), hd.2⟩
                      · exact hs f (List.mem_cons_of_mem _ hf2)
                · rw [if_neg hge]
                  exact ⟨ho, hp, hs⟩
          · rw [if_neg h5]
            by_cases h7 : 0x000B ≤ c ∧ c ≤ 0x000D
            · rw [if_pos h7]
              rcases hfp : flushParagraph st.paragraph st.output st.first with
                ⟨para, out, first⟩
              have hfl := flushParagraph_ok st.paragraph st.output st.first hp ho
              rw [hfp] at hfl
              exact ⟨hfl.2, hfl.1, hs⟩
            · rw [if_neg h7]
              by_cases h8 : c = 0x0007 ∨ c = 0x0009
              · rw [if_pos h8]
                exact ⟨ho, bufOk_append _ _ hp (bufOk_single '\t' (Or.inl rfl)), hs⟩
              · rw [if_neg h8]
                by_cases h9 : c = 0x001E
                · rw [if_pos h9]
                  exact ⟨ho, bufOk_append _ _ hp
                    (bufOk_single '-' (Or.inr (by decide))), hs⟩
                · rw [if_neg h9]
                  by_cases h10 : c = 0x001F ∨ c = 0x0002 ∨ c = 0xFEFF
                  · rw [if_pos h10]
                    exact ⟨ho, hp, hs⟩
                  · rw [if_neg h10]
                    by_cases h11 : 0xDC00 ≤ c ∧ c ≤ 0xDFFF
                    · rw [if_pos h11]
                      exact ⟨ho, bufOk_append _ _ hp
                        (bufOk_single (Char.ofNat 0xFFFD) (Or.inr (by decide))), hs⟩
                    · rw [if_neg h11]
                      by_cases h12 : c < 0x0020
                      · rw [if_pos h12]
                        exact ⟨ho, hp, hs⟩
                      · rw [if_neg h12]
                        cases hcu : charFromU32 c with
                        | none => exact ⟨ho, hp, hs⟩
                        | some ch =>
                          have hc20 : 0x20 ≤ ch.toNat := by
                            rw [charFromU32_toNat c ch hcu]
                            omega
                          exact ⟨ho, bufOk_append _ _ hp
                            (bufOk_single ch (Or.inr hc20)), hs⟩

end Doc

namespace Doc

theorem pushDecoded_ok (st : DocState) (och : Option Char) (h : stOk st)
    (hch : ∀ ch, och = some ch → bufCharOk ch) : stOk (pushDecoded st och) := by
  obtain ⟨ho, hp, hs⟩ := h
  cases och with
  | none => exact ⟨ho, hp, hs⟩
  | some ch =>
    rw [pushDecoded]
    have hpc := pushChar_ok ch st.fieldStack st.paragraph (hch ch rfl) hp hs
    rcases hq : pushCharToFieldOrPara ch st.fieldStack st.paragraph with ⟨fs, para⟩
    rw [hq] at hpc
    exact ⟨ho, hpc.2, hpc.1⟩

theorem surrogatePush_ok (st : DocState) (hi c : ℕ) (h : stOk st) :
    stOk (surrogatePush st hi c) := by
  rw [surrogatePush]
  apply pushDecoded_ok st _ h
  intro ch hch
  right
  rw [charFromU32_toNat _ ch hch]
  omega

theorem docStep_ok (st : DocState) (c : ℕ) (h : stOk st) : stOk (docStep st c) := by
  obtain ⟨o, p, fi, fd, fstk, ph⟩ := st
  obtain ⟨ho, hp, hs⟩ := h
  cases ph with
  | none => exact docMatch_ok _ c ⟨ho, hp, hs⟩
  | some hi =>
    by_cases hlo : 0xDC00 ≤ c ∧ c ≤ 0xDFFF
    · have hgoal := surrogatePush_ok ⟨o, p, fi, fd, fstk, some hi⟩ hi c ⟨ho, hp, hs⟩
      rw [docStep]
      dsimp only
      rw [if_pos hlo]
      exact hgoal
    · have hpc := pushChar_ok (Char.ofNat 0xFFFD) fstk p
        (Or.inr (by decide)) hp hs
      rw [docStep]
      dsimp only
      rw [if_neg hlo]
      rcases hq : pushCharToFieldOrPara (Char.ofNat 0xFFFD) fstk p with ⟨fs, para⟩
      rw [hq] at hpc
      exact docMatch_ok _ c ⟨ho, hpc.2, hpc.1⟩

theorem foldl_docStep_ok (chars : List ℕ) :
    ∀ st : DocState, stOk st → stOk (chars.foldl docStep st) := by
  induction chars with
  | nil => intro st h; exact h
  | cons c rest ih =>
    intro st h
    exact ih (docStep st c) (docStep_ok st c h)

theorem chars_to_text_outOk (chars : List ℕ) : outOk (chars_to_text chars) := by
  obtain ⟨ho, hp, hs⟩ := foldl_docStep_ok chars ⟨"", "", true, 0, [], none⟩
    ⟨fun c hc => (nomatch hc), fun c hc => (nomatch hc), fun f hf => (nomatch hf)⟩
  simp only [chars_to_text]
  by_cases hph : (chars.foldl docStep ⟨"", "", true, 0, [], none⟩).pendingHigh.isSome
  · rw [if_pos hph]
    exact (flushParagraph_ok _ _ _
      (bufOk_append _ _ hp (bufOk_single (Char.ofNat 0xFFFD) (Or.inr (by decide))))
      ho).2
  · rw [if_neg hph]
    exact (flushParagraph_ok _ _ _ hp ho).2

end Doc

/-- C6 (amended): the `.doc` extractor's output contains no C0 control
characters other than tab and newline — every string `extract_plain`
(src/doc.rs) returns consists of characters that are `\t`, `\n`, or at
least U+0020.  (The claim as stated over every supported format is false:
the `.xls` path copies control characters from cell strings verbatim, see
the counterexample.) -/
theorem c6_doc_output_no_control_chars (dh : ℕ → ℕ → Char) (buf : List ℕ)
    (s : String) (h : Doc.extract_plain dh buf = .ok s) :
    ∀ c ∈ s.data, c = '\t' ∨ c = '\n' ∨ 0x20 ≤ c.toNat := by
  rw [Doc.extract_plain] at h
  simp only [ge_iff_le] at h
  split at h
  · exact absurd h (by simp)
  · split at h
    · exact absurd h (by simp)
    · split at h
      · exact absurd h (by simp)
      · cases h
        exact Doc.chars_to_text_outOk _

/-- Witness for C6: a 34-byte WordDocument stream whose text range holds
the bytes "Hi" extracts to "Hi\n", which satisfies the character
invariant. -/
theorem c6_doc_output_no_control_chars_witness :
    Doc.extract_plain (fun _ _ => 'x')
      (List.replicate 24 0 ++ [32, 0, 0, 0, 34, 0, 0, 0, 0x48, 0x69]) =
      .ok "Hi\n" ∧
    ∀ c ∈ "Hi\n".data, c = '\t' ∨ c = '\n' ∨ 0x20 ≤ c.toNat := by
  refine ⟨by rfl, ?_⟩
  exact c6_doc_output_no_control_chars (fun _ _ => 'x')
    (List.replicate 24 0 ++ [32, 0, 0, 0, 34, 0, 0, 0, 0x48, 0x69]) "Hi\n"
    (by rfl)

/-- C6 counterexample: a structurally valid `.xls` workbook whose single
LABEL cell text is U+0001 extracts to the string U+0001 followed by a
newline; U+0001 is a C0 control character that is neither tab nor
newline, so the claimed invariant fails for the `.xls` extractor. -/
theorem c6_xls_control_char :
    Xls.extract_plain (fun _ _ => Char.ofNat 0xFFFD) Xls.controlCharWorkbook =
      .ok (String.mk [Char.ofNat 1, '\n']) ∧
    ¬ (Char.ofNat 1 = '\t' ∨ Char.ofNat 1 = '\n' ∨
        0x20 ≤ (Char.ofNat 1).toNat) :=
  ⟨by rfl, by decide⟩
